import Mathlib

/-!
Verification of the name-resolution and coverage pipeline of the
Cleaning-datasets repository (Harmonization scripts).

Strings are modelled as lists of characters.  Python regular-expression
character classes are modelled over the ASCII alphabet the data uses:
a word character (regex backslash-w) is an ASCII letter, digit or
underscore, and a whitespace character (regex backslash-s) is a blank,
tab, carriage return or newline.
-/

namespace Harmonization

abbrev Str := List Char

/-- ASCII uppercase letters by code point. -/
def isUpperCode (c : Char) : Bool := decide (65 ≤ c.toNat ∧ c.toNat ≤ 90)

/-- Model of the regex word-character class over ASCII: letters, digits
and underscore, written as code-point ranges. -/
def isWordChar (c : Char) : Bool :=
  isUpperCode c || decide (97 ≤ c.toNat ∧ c.toNat ≤ 122) ||
    decide (48 ≤ c.toNat ∧ c.toNat ≤ 57) || c = '_'

/-- Model of the regex whitespace class. -/
def isSpaceChar (c : Char) : Bool :=
  c = ' ' || c = '\t' || c = '\n' || c = '\r'

/-- First argument is a pattern tested against the start of the second. -/
def startsWithL : Str → Str → Bool
  | [], _ => true
  | _ :: _, [] => false
  | a :: as, b :: bs => a = b && startsWithL as bs

/-- Python substring containment (pat in hay). -/
def containsSub (hay pat : Str) : Bool :=
  match hay with
  | [] => startsWithL pat []
  | _ :: rest => startsWithL pat hay || containsSub rest pat

/-- Drop leading whitespace (left part of Python str.strip). -/
def trimL (s : Str) : Str := s.dropWhile isSpaceChar

/-- Drop trailing whitespace (right part of Python str.strip). -/
def trimR : Str → Str
  | [] => []
  | c :: rest =>
    if isSpaceChar c ∧ trimR rest = [] then [] else c :: trimR rest

/-- Python str.strip for whitespace. -/
def pyStrip (s : Str) : Str := trimL (trimR s)

/-- Python str.lower, modelled for ASCII letters plus the circumflexed
Welsh vowels the matcher documents (uppercase to lowercase). -/
def pyLower (c : Char) : Char :=
  if c = 'Ô' then 'ô' else if c = 'Â' then 'â' else if c = 'Ê' then 'ê'
  else if c = 'Î' then 'î' else if c = 'Û' then 'û' else if c = 'Ŵ' then 'ŵ'
  else if c = 'Ŷ' then 'ŷ'
  else if h : 65 ≤ c.toNat ∧ c.toNat ≤ 90 then
    Char.ofNatAux (c.toNat + 32) (Or.inl (by omega))
  else c

/-- Combining circumflex accent, the combining mark produced by NFD
decomposition of the accented vowels the source handles. -/
def combiningCircumflex : Char := '̂'

/-- Unicode category Mn membership, restricted to the combining mark the
model produces. -/
def isMn (c : Char) : Bool := c = combiningCircumflex

/-- NFD canonical decomposition, modelled on the circumflexed vowels named
in the source docstring (both cases); all other characters are atomic. -/
def nfd (c : Char) : List Char :=
  if c = 'ô' then ['o', combiningCircumflex]
  else if c = 'â' then ['a', combiningCircumflex]
  else if c = 'ê' then ['e', combiningCircumflex]
  else if c = 'î' then ['i', combiningCircumflex]
  else if c = 'û' then ['u', combiningCircumflex]
  else if c = 'ŵ' then ['w', combiningCircumflex]
  else if c = 'ŷ' then ['y', combiningCircumflex]
  else if c = 'Ô' then ['O', combiningCircumflex]
  else if c = 'Â' then ['A', combiningCircumflex]
  else if c = 'Ê' then ['E', combiningCircumflex]
  else if c = 'Î' then ['I', combiningCircumflex]
  else if c = 'Û' then ['U', combiningCircumflex]
  else if c = 'Ŵ' then ['W', combiningCircumflex]
  else if c = 'Ŷ' then ['Y', combiningCircumflex]
  else [c]

/-- Source strip_accents: NFD-normalize then drop combining marks. -/
def strip_accents (s : Str) : Str :=
  (s.flatMap nfd).filter (fun c => !(isMn c))

/-- One pass of source strip_brackets: replace every leftmost-first span
from an opening bracket to the first closing bracket after it by one
blank (unclosed opening brackets are left in place, as with the regex).
The state carries the reversed pending characters after an unclosed
opening bracket. -/
def subBrA (op cl : Char) : Option Str → Str → Str
  | none, [] => []
  | some buf, [] => buf.reverse
  | none, c :: rest =>
    if c = op then subBrA op cl (some [c]) rest
    else c :: subBrA op cl none rest
  | some buf, c :: rest =>
    if c = cl then ' ' :: subBrA op cl none rest
    else subBrA op cl (some (c :: buf)) rest

/-- Source strip_brackets: square-bracketed then parenthesized spans. -/
def strip_brackets (s : Str) : Str :=
  subBrA '(' ')' none (subBrA '[' ']' none s)

/-- True when the word-boundary test holds just after a word character:
end of string or a non-word character. -/
def nonWordHead : Str → Bool
  | [] => true
  | c :: _ => !isWordChar c

/-- Number of leading dot characters. -/
def countDots (s : Str) : Nat := (s.takeWhile (fun c => c = '.')).length

/-- True when the character after the leading dots is a word character. -/
def wordAfterDots (s : Str) : Bool := !nonWordHead (s.drop (countDots s))

def saintL : Str := ['s', 'a', 'i', 'n', 't']

/-- The first substitution of source normalize_st_saint: the regex that
rewrites a word-bounded st followed by optional dots to saint.  The
boolean records whether the previously scanned character was a word
character (so no boundary lies before the current position).  The greedy
dot run is kept only when a word character follows it, mirroring the
backtracking of the trailing boundary test. -/
def subSt : Bool → Str → Str
  | _, [] => []
  | prevW, 's' :: 't' :: rest =>
    if prevW then 's' :: subSt true ('t' :: rest)
    else
      if 0 < countDots rest then
        if wordAfterDots rest then
          saintL ++ subSt false (rest.drop (countDots rest))
        else
          saintL ++ subSt true rest
      else
        if nonWordHead rest then saintL ++ subSt true rest
        else 's' :: subSt true ('t' :: rest)
  | _, c :: rest => c :: subSt (isWordChar c) rest
termination_by _ s => s.length
decreasing_by
  all_goals simp_all [List.length_drop] <;> omega

/-- The second substitution of source normalize_st_saint: the regex
rewriting the word saint to itself. -/
def subSaint : Bool → Str → Str
  | _, [] => []
  | prevW, 's' :: 'a' :: 'i' :: 'n' :: 't' :: rest =>
    if !prevW && nonWordHead rest then saintL ++ subSaint true rest
    else 's' :: subSaint true ('a' :: 'i' :: 'n' :: 't' :: rest)
  | _, c :: rest => c :: subSaint (isWordChar c) rest

/-- Source normalize_st_saint (applied after lowercasing, so the
case-insensitive flag is immaterial). -/
def normalize_st_saint (s : Str) : Str :=
  subSaint false (subSt false s)

def withReplacement : Str := [' ', 'w', 'i', 't', 'h', ' ']

/-- Model of the regex rewriting the word-bounded word cum to
blank-with-blank. -/
def subCum : Bool → Str → Str
  | _, [] => []
  | prevW, 'c' :: 'u' :: 'm' :: rest =>
    if !prevW && nonWordHead rest then withReplacement ++ subCum true rest
    else 'c' :: subCum true ('u' :: 'm' :: rest)
  | _, c :: rest => c :: subCum (isWordChar c) rest

def andReplacement : Str := [' ', 'a', 'n', 'd', ' ']

/-- Python replace of each ampersand by blank-and-blank. -/
def ampSub (s : Str) : Str :=
  s.flatMap (fun c => if c = '&' then andReplacement else [c])

/-- Python replace of hyphens and slashes by blanks. -/
def hyphenSlashSub (s : Str) : Str :=
  s.map (fun c => if c = '-' ∨ c = '/' then ' ' else c)

/-- The punctuation-stripping regex: every character that is not a word
character, whitespace, or (in the comma-keeping variant) a comma is
replaced by a blank. -/
def punctSub (keepComma : Bool) (s : Str) : Str :=
  s.map (fun c =>
    if isWordChar c || isSpaceChar c || (keepComma && c = ',') then c else ' ')

/-- The whitespace-collapsing regex: every maximal whitespace run becomes
one blank. -/
def collapseWs : Str → Str
  | [] => []
  | c :: rest =>
    if isSpaceChar c then ' ' :: (collapseWs rest).dropWhile isSpaceChar
    else c :: collapseWs rest

/-- Source make_key_improved: the full normalization pipeline. -/
def make_key_improved (keepComma : Bool) (s : Str) : Str :=
  let s1 := pyStrip (s.map pyLower)
  let s2 := strip_accents s1
  let s3 := strip_brackets s2
  let s4 := normalize_st_saint s3
  let s5 := ampSub s4
  let s6 := subCum false s5
  let s7 := hyphenSlashSub s6
  let s8 := punctSub keepComma s7
  pyStrip (collapseWs s8)

/-- Python single-character replace-all. -/
def replaceAll (a b : Char) (s : Str) : Str :=
  s.map (fun c => if c = a then b else c)

/-- Python two-character replace-all (left-to-right, non-overlapping). -/
def replace2 (p q x y : Char) : Str → Str
  | [] => []
  | [c] => [c]
  | c :: d :: rest =>
    if c = p ∧ d = q then x :: y :: replace2 p q x y rest
    else c :: replace2 p q x y (d :: rest)

/-- Source make_welsh_variants: v-f, i-y and ch-gh substitutions, each
applied independently in both directions. -/
def make_welsh_variants (s : Str) : List Str :=
  (if s.contains 'v' then [replaceAll 'v' 'f' s] else [])
  ++ (if s.contains 'f' then [replaceAll 'f' 'v' s] else [])
  ++ (if s.contains 'i' then [replaceAll 'i' 'y' s] else [])
  ++ (if s.contains 'y' then [replaceAll 'y' 'i' s] else [])
  ++ (if containsSub s ['c', 'h'] then [replace2 'c' 'h' 'g' 'h' s] else [])
  ++ (if containsSub s ['g', 'h'] then [replace2 'g' 'h' 'c' 'h' s] else [])

/-- Source make_vowel_variants: a-e and e-i interchanges.  The e-to-a
direction is generated only when the key has no letter a (the source
guards it to avoid double replacement). -/
def make_vowel_variants (s : Str) : List Str :=
  (if s.contains 'a' then [replaceAll 'a' 'e' s] else [])
  ++ (if s.contains 'e' ∧ ¬s.contains 'a' then [replaceAll 'e' 'a' s] else [])
  ++ (if s.contains 'e' then [replaceAll 'e' 'i' s] else [])
  ++ (if s.contains 'i' then [replaceAll 'i' 'e' s] else [])

/-- Truncation regex used by make_variants: remove everything from the
first place where one-or-more whitespace characters are followed by the
word w and at least one more whitespace character (the trailing dot-star
eats the rest of the string, so the match is a truncation).  The
optional the-group of the on-variant is subsumed by the dot-star. -/
def truncClause (w : Str) : Str → Str
  | [] => []
  | c :: rest =>
    if isSpaceChar c then
      let r2 := (c :: rest).dropWhile isSpaceChar
      if startsWithL w r2 &&
          (match r2.drop w.length with
           | [] => false
           | d :: _ => isSpaceChar d) then []
      else c :: truncClause w rest
    else c :: truncClause w rest

/-- Source make_variants: the ordered variant list probed by stage 1. -/
def make_variants (sraw : Str) : List (Str × String) :=
  let base := make_key_improved false sraw
  let noSp := base.filter (fun c => c ≠ ' ')
  let v :=
    [(base, "exact")]
    ++ ((make_welsh_variants base).filter (· ≠ base)).map
        (fun t => (t, "welsh_variant"))
    ++ ((make_vowel_variants base).filter (· ≠ base)).map
        (fun t => (t, "vowel_variant"))
  let v :=
    if noSp ≠ base then
      v ++ [(noSp, "no_spaces")]
        ++ ((make_welsh_variants noSp).filter (· ≠ noSp)).map
            (fun t => (t, "welsh_variant_no_spaces"))
        ++ ((make_vowel_variants noSp).filter (· ≠ noSp)).map
            (fun t => (t, "vowel_variant_no_spaces"))
    else v
  let v :=
    if containsSub base [' ', 'w', 'i', 't', 'h', ' '] then
      let ww := pyStrip (truncClause ['w', 'i', 't', 'h'] base)
      if ww ≠ [] then
        v ++ [(ww, "without_with"),
              (ww.filter (fun c => c ≠ ' '), "without_with_no_spaces")]
      else v
    else v
  let v :=
    if containsSub base [' ', 'o', 'n', ' '] then
      let wo := pyStrip (truncClause ['o', 'n'] base)
      if wo ≠ [] then v ++ [(wo, "without_on")] else v
    else v
  let v :=
    if containsSub base [' ', 'n', 'i', 'g', 'h', ' '] then
      let wn := pyStrip (truncClause ['n', 'i', 'g', 'h'] base)
      if wn ≠ [] then v ++ [(wn, "without_nigh")] else v
    else v
  if startsWithL ['l', 'o', 'w', 'e', 'r', ' '] base then
    let wp := pyStrip (base.drop 6)
    if wp ≠ [] then
      let wpNoSp := wp.filter (fun c => c ≠ ' ')
      v ++ [(wp, "without_lower"), (wpNoSp, "without_lower_no_spaces")]
        ++ ((make_welsh_variants wpNoSp).filter (· ≠ wpNoSp)).map
            (fun t => (t, "without_lower_welsh"))
    else v
  else if startsWithL ['u', 'p', 'p', 'e', 'r', ' '] base then
    let wp := pyStrip (base.drop 6)
    if wp ≠ [] then
      let wpNoSp := wp.filter (fun c => c ≠ ' ')
      v ++ [(wp, "without_upper"), (wpNoSp, "without_upper_no_spaces")]
        ++ ((make_welsh_variants wpNoSp).filter (· ≠ wpNoSp)).map
            (fun t => (t, "without_upper_welsh"))
    else v
  else v

/-- One reference 1851 parish: its ID column and its PLA name column. -/
structure RefParish where
  id : Nat
  pla : Str
deriving Repr, DecidableEq

def divWords : List Str :=
  [['u', 'p', 'p', 'e', 'r'], ['l', 'o', 'w', 'e', 'r'],
   ['c', 'i', 't', 'r', 'a'], ['u', 'l', 't', 'r', 'a']]

def andWord : Str := ['a', 'n', 'd']

def divisionWord : Str := ['d', 'i', 'v', 'i', 's', 'i', 'o', 'n']

/-- Length of the division-suffix regex match starting exactly at s, if
any: one-or-more whitespace, one of upper/lower/citra/ultra, one-or-more
whitespace, an optional and-plus-whitespace group, then the literal
division.  The alternation division-or-divisions is ordered, so its
first branch always wins and a trailing s is never consumed. -/
def matchDivSuffix (s : Str) : Option Nat :=
  let sp1 := (s.takeWhile isSpaceChar).length
  if sp1 = 0 then none
  else
    let r1 := s.drop sp1
    match divWords.find? (fun w => startsWithL w r1) with
    | none => none
    | some w =>
      let r2 := r1.drop w.length
      let sp2 := (r2.takeWhile isSpaceChar).length
      if sp2 = 0 then none
      else
        let r3 := r2.drop sp2
        let andLen :=
          if startsWithL andWord r3 then
            let r4 := r3.drop 3
            let sp3 := (r4.takeWhile isSpaceChar).length
            if 0 < sp3 ∧ startsWithL divisionWord (r4.drop sp3) then 3 + sp3
            else 0
          else 0
        if startsWithL divisionWord (r3.drop andLen) then
          some (sp1 + w.length + sp2 + andLen + 8)
        else none

/-- The division-suffix substitution applied to key_no_comma: every match
of the suffix regex is deleted, scanning left to right. -/
def subDivSuffix : Str → Str
  | [] => []
  | c :: rest =>
    match matchDivSuffix (c :: rest) with
    | some n =>
      if 0 < n then subDivSuffix ((c :: rest).drop n)
      else c :: subDivSuffix rest
    | none => c :: subDivSuffix rest
termination_by s => s.length
decreasing_by
  all_goals simp_all [List.length_drop]

/-- All lookup keys one reference parish contributes, in the order the
source inserts them: full key, comma-stripped key, suffix-stripped key,
their no-space forms, and the Welsh and vowel variants of each. -/
def parishKeys (p : RefParish) : List Str :=
  let kf := make_key_improved true p.pla
  let knc := make_key_improved false p.pla
  let kns := pyStrip (subDivSuffix knc)
  let base := [kf, knc, kns]
  let keysToAdd :=
    base ++ (base.filter (fun k => k ≠ [])).map (fun k => k.filter (fun c => c ≠ ' '))
  keysToAdd.flatMap (fun k =>
    if k = [] then []
    else k :: ((make_welsh_variants k).filter (· ≠ k)
               ++ (make_vowel_variants k).filter (· ≠ k)))

/-- Dictionary lookup in the association-list model of the Python dict
(keys are unique by construction, insertion order is list order). -/
def findVal (d : List (Str × Nat)) (k : Str) : Option Nat :=
  (d.find? (fun e => e.1 == k)).map (fun e => e.2)

/-- One dict insertion guarded by the source test: key truthy (nonempty)
and not already present. -/
def insertKey (d : List (Str × Nat)) (k : Str) (v : Nat) : List (Str × Nat) :=
  if k ≠ [] ∧ findVal d k = none then d ++ [(k, v)] else d

/-- Insert all keys of one parish. -/
def insertParish (d : List (Str × Nat)) (p : RefParish) : List (Str × Nat) :=
  (parishKeys p).foldl (fun acc k => insertKey acc k p.id) d

/-- The parish lookup dict built over the reference list in input order. -/
def buildLookup (ps : List RefParish) : List (Str × Nat) :=
  ps.foldl insertParish []

/-- Stage 1 of the resolver: probe the index with each variant in order,
first hit wins and its method tag is recorded. -/
def stage1Find (lk : List (Str × Nat)) (name : Str) : Option (Nat × String) :=
  (make_variants name).findSome?
    (fun vm => (findVal lk vm.1).map (fun i => (i, vm.2)))

/-- The no-space normalized key stage 1b probes with. -/
def noSpaceKey (name : Str) : Str :=
  (make_key_improved false name).filter (fun c => c ≠ ' ')

/-- The stage-1b acceptance test for one reference key: the no-space
place-name key is a proper substring and the reference key is at most 15
characters longer. -/
def stage1bCond (bk : Str) (e : Str × Nat) : Bool :=
  containsSub e.1 bk && bk ≠ e.1 && ((e.1.length : Int) - (bk.length : Int) ≤ 15)

/-- Stage 1b of the resolver: substring scan over the reference keys in
dict insertion order, only for no-space keys of length at least 5. -/
def stage1bFind (lk : List (Str × Nat)) (name : Str) : Option (Nat × String) :=
  if (noSpaceKey name).length < 5 then none
  else (lk.find? (stage1bCond (noSpaceKey name))).map (fun e => (e.2, "substring_match"))

/-- The per-name resolution: stage 1, then (only if it found nothing)
stage 1b.  The script computes this once per unique parish name and maps
the resulting dicts onto the rows; since the result is a function of the
name alone, the mapped column equals this function of the row name. -/
def resolveName (lk : List (Str × Nat)) (name : Str) : Option (Nat × String) :=
  match stage1Find lk name with
  | some r => some r
  | none => stage1bFind lk name

/-- One scraped UKBMD row after year coercion: nullable parish name,
district, and nullable coerced years. -/
structure UkRow where
  parish : Option Str
  district : Str
  fromYear : Option Int
  toYear : Option Int
deriving Repr, DecidableEq

/-- Source eligible_1851 column: from_year known and at most 1851, and
to_year missing or at least 1851. -/
def eligible_1851 (r : UkRow) : Bool :=
  match r.fromYear with
  | none => false
  | some f =>
    f ≤ 1851 &&
      (match r.toYear with
       | none => true
       | some t => 1851 ≤ t)

/-- The matched_1851_index column of the concordance output. -/
def matched1851Index (lk : List (Str × Nat)) (r : UkRow) : Option Nat :=
  r.parish.bind (fun n => (resolveName lk n).map (fun e => e.1))

/-- The matched column: whether matched_1851_index is non-null. -/
def matchedCol (lk : List (Str × Nat)) (r : UkRow) : Bool :=
  (matched1851Index lk r).isSome

/-- The match_method column: the method tag mapped over parish names;
null for null names and for names absent from both match dicts. -/
def matchMethodCol (lk : List (Str × Nat)) (r : UkRow) : Option String :=
  r.parish.bind (fun n => (resolveName lk n).map (fun e => e.2))

/-- One concordance row as read by the coverage script (years already
numeric-coerced, matched already boolean). -/
structure ConcRow where
  district : Str
  parish : Option Str
  matched : Bool
  fromYear : Option Int
  toYear : Option Int
deriving Repr, DecidableEq

/-- One expanded district-parish-year activity row. -/
structure YearRow where
  district : Str
  parish : Option Str
  matched : Bool
  year : Int
deriving Repr, DecidableEq

/-- Clipped interval start: missing from_year defaults to 1837, then the
start is bounded below by the window start 1851. -/
def clipStart (r : ConcRow) : Int := max (r.fromYear.getD 1837) 1851

/-- Clipped interval end: missing to_year defaults to 9999, then the end
is bounded above by the window end 1990. -/
def clipEnd (r : ConcRow) : Int := min (r.toYear.getD 9999) 1990

/-- Interval expansion of one record: rows are kept only when the clipped
duration is positive, and one row per year of the clipped inclusive
range is emitted (the vectorized repeat-and-offset of the source). -/
def expandRec (r : ConcRow) : List YearRow :=
  if 0 < clipEnd r - clipStart r + 1 then
    (List.range (clipEnd r - clipStart r + 1).toNat).map
      (fun k => { district := r.district, parish := r.parish,
                  matched := r.matched, year := clipStart r + k })
  else []

/-- The full expansion: per-record expansion concatenated in row order. -/
def expandAll (rows : List ConcRow) : List YearRow :=
  rows.flatMap expandRec

/-- One aggregated district-year coverage row. -/
structure CoverageRow where
  year : Int
  district : Str
  activeParishRows : Nat
  activeUniqueParishes : Nat
  matchedParishRows : Nat
  matchedUniqueParishes : Nat
  matchedShare : ℚ
  usable1851Backbone : Int
deriving Repr, DecidableEq

/-- The coverage aggregation: group the expanded rows by (year, district)
and summarize.  The merge-plus-fillna(0) of the source for the matched
unique count equals the direct distinct count over the matched subset;
pandas emits the groups in sorted key order, modelled here in first-seen
order (the set of emitted rows is the same). -/
def aggregate (rows : List YearRow) : List CoverageRow :=
  ((rows.map (fun r => (r.year, r.district))).dedup).map (fun k =>
    let g := rows.filter (fun r => r.year == k.1 && r.district == k.2)
    let matchedG := g.filter (fun r => r.matched)
    { year := k.1, district := k.2,
      activeParishRows := g.length,
      activeUniqueParishes := (g.filterMap (fun r => r.parish)).dedup.length,
      matchedParishRows := matchedG.length,
      matchedUniqueParishes := (matchedG.filterMap (fun r => r.parish)).dedup.length,
      matchedShare := (matchedG.length : ℚ) / (g.length : ℚ),
      usable1851Backbone := if 0 < matchedG.length then 1 else 0 })

/-- A planar point in the fixed projected coordinate system (coordinates
modelled as rationals; no arithmetic on them is proved here). -/
structure Pt where
  x : ℚ
  y : ℚ
deriving Repr, DecidableEq

/-- One summary row consumed by the centroid imputer, restricted to the
fields the imputation logic reads or writes.  The imputed_from_district
and imputed_distance_km values of the source end up in merge-suffixed
columns and are not modelled. -/
structure SRow where
  districtStd : Str
  usable1851Backbone : Int
  centroidX : Option ℚ
  centroidY : Option ℚ
  locationImputed : Int
  imputationFailed : Int
  imputationSourcePoint : Option String
deriving Repr, DecidableEq

/-- The per-row effect of one imputation year.  offMap abstracts the
official-shapefile centroid lookup by standardized name; nearest
abstracts the nearest-target spatial join (returning the chosen district,
the distance and the target centroid, or nothing when there is no
target).  Rows with a usable backbone are outside the needs mask and
pass through untouched; rows without a source point or without a join
result are flagged failed; otherwise the row is marked imputed and its
missing coordinates are filled from the target centroid. -/
def imputeRow (offMap : Str → Option Pt) (nearest : Pt → Option (Str × ℚ × Pt))
    (r : SRow) : SRow :=
  if r.usable1851Backbone == 0 then
    let src : Option (Pt × String) :=
      match r.centroidX, r.centroidY with
      | some x, some y => some ({ x := x, y := y }, "from_existing_xy")
      | _, _ => (offMap r.districtStd).map (fun p => (p, "from_official_name"))
    match src with
    | none => { r with imputationFailed := 1 }
    | some (p, tag) =>
      match nearest p with
      | none => { r with imputationFailed := 1 }
      | some (_, _, tgt) =>
        { r with locationImputed := 1,
                 centroidX := some (r.centroidX.getD tgt.x),
                 centroidY := some (r.centroidY.getD tgt.y),
                 imputationSourcePoint := some (r.imputationSourcePoint.getD tag) }
  else r

/-- One imputation year over its summary rows (the masked frame updates
of the source act row-wise, merged back one-to-one on row_id). -/
def imputeYear (offMap : Str → Option Pt) (nearest : Pt → Option (Str × ℚ × Pt))
    (rows : List SRow) : List SRow :=
  rows.map (imputeRow offMap nearest)

/-- The Boolean predicate of the first-wins statement: the probed key is
nonempty and among the keys the parish generates. -/
def keyHits (k : Str) (p : RefParish) : Bool :=
  !k.isEmpty && (parishKeys p).contains k
/-- A one-binding dict used by the C2 witness. -/
def witnessDict : List (Str × Nat) := [(('d' :: []), 1)]
/-- A parish whose keys collide with the existing binding of
witnessDict. -/
def witnessParish : RefParish := { id := 2, pla := ('d' :: []) }
/-- A one-row concrete activity table used by the coverage witness. -/
def sampleYearRows : List YearRow :=
  [{ district := [], parish := none, matched := true, year := 1851 }]
/-- The coverage row the aggregation produces on sampleYearRows. -/
def sampleCoverageRow : CoverageRow :=
  { year := 1851, district := [], activeParishRows := 1,
    activeUniqueParishes := 0, matchedParishRows := 1,
    matchedUniqueParishes := 0, matchedShare := 1, usable1851Backbone := 1 }
/-- A concrete summary row that already has a usable backbone. -/
def usableSampleRow : SRow :=
  { districtStd := [], usable1851Backbone := 1, centroidX := none,
    centroidY := none, locationImputed := 0, imputationFailed := 0,
    imputationSourcePoint := none }
/-- A concrete row pair sharing a parish name but differing in district
and both year fields. -/
def sameNameRowA : UkRow :=
  { parish := some ('z' :: []), district := ('a' :: []),
    fromYear := some 1800, toYear := some 1830 }
/-- Companion row of sameNameRowA with different non-name fields. -/
def sameNameRowB : UkRow :=
  { parish := some ('z' :: []), district := ('b' :: []),
    fromYear := some 1900, toYear := none }
/-- A one-parish reference table whose name is Dover. -/
def doverParishes : List RefParish :=
  [{ id := 1, pla := ['D', 'o', 'v', 'e', 'r'] }]
/-- The raw place name Dover. -/
def doverName : Str := ['D', 'o', 'v', 'e', 'r']
/-- A source row whose interval 1800..1830 does not overlap 1851 but
whose place name matches the reference table. -/
def ineligibleRow : UkRow :=
  { parish := some doverName, district := ['X'],
    fromYear := some 1800, toYear := some 1830 }
/-- A one-parish reference table for the substring example. -/
def shawdonParishes : List RefParish :=
  [{ id := 9,
     pla := ['S', 'h', 'a', 'w', 'd', 'o', 'n', ' ', 'a', 'n', 'd', ' ',
             'W', 'o', 'o', 'd', 'h', 'o', 'u', 's', 'e'] }]
/-- The raw place name Shawdon. -/
def shawdonName : Str := ['S', 'h', 'a', 'w', 'd', 'o', 'n']
/-- A raw place name resembling no reference key. -/
def unmatchedName : Str := ['Q', 'q', 'q', 'q', 'q', 'q']
/-- An eligible source row whose place name matches nothing. -/
def unmatchedRow : UkRow :=
  { parish := some unmatchedName, district := [],
    fromYear := some 1850, toYear := none }
/-- The Shawdon source row probed by the C5 counterexample. -/
def shawdonRow : UkRow :=
  { parish := some shawdonName, district := [],
    fromYear := some 1837, toYear := none }

/-! Definitions supporting the normalizer-idempotence development: the
character classes of fully normalized keys, duplicate-blank and trailing
-blank tests, and the scanner for word-bounded token occurrences. -/

/-- The characters a fully normalized key may contain: lowercase word
characters, blanks, and (in the comma-keeping variant) commas. -/
def allowedChar (kc : Bool) (c : Char) : Bool :=
  (isWordChar c && !isUpperCode c) || c = ' ' || (kc && c = ',')

/-- No two adjacent whitespace characters. -/
def noDbl : Str → Bool
  | c :: c2 :: r => !(isSpaceChar c && isSpaceChar c2) && noDbl (c2 :: r)
  | _ => true

/-- The last character, if any, is not whitespace. -/
def lastNotSp : Str → Bool
  | [] => true
  | [c] => !isSpaceChar c
  | _ :: c2 :: r => lastNotSp (c2 :: r)

/-- The first character, if any, is not whitespace. -/
def headNotSp : Str → Bool
  | [] => true
  | c :: _ => !isSpaceChar c

/-- Scanner for a word-bounded occurrence of the word w (all word
characters): the flag records whether the previously scanned character
was a word character, i.e. whether no word boundary lies before the
current position. -/
def hasTokB (w : Str) : Bool → Str → Bool
  | _, [] => false
  | prevW, c :: rest =>
    (!prevW && startsWithL w (c :: rest) && nonWordHead ((c :: rest).drop w.length))
      || hasTokB w (isWordChar c) rest

/-- A character that lowercasing may output: not an ASCII uppercase
letter and not one of the uppercase circumflexed vowels the model
decomposes. -/
def lowerSafe (c : Char) : Prop :=
  isUpperCode c = false ∧ c ≠ 'Ô' ∧ c ≠ 'Â' ∧ c ≠ 'Ê' ∧ c ≠ 'Î' ∧
    c ≠ 'Û' ∧ c ≠ 'Ŵ' ∧ c ≠ 'Ŷ'

/-! Claim theorems. -/
/-- Lookup in the empty dict misses. -/
theorem findVal_nil (k : Str) : findVal [] k = none := rfl
/-- Appending one binding affects only lookups that previously missed
and ask for the appended key. -/
theorem findVal_append_one (d : List (Str × Nat)) (k0 : Str) (v0 : Nat) (k : Str) :
    findVal (d ++ [(k0, v0)]) k =
      ((findVal d k).or (if k0 = k then some v0 else none)) := by
  unfold findVal
  rw [List.find?_append]
  cases hf : List.find? (fun e => e.1 == k) d with
  | none =>
    by_cases h : k0 = k
    · subst h
      simp [List.find?]
    · simp [List.find?, beq_false_of_ne h, h]
  | some e => simp
/-- An insertKey step never disturbs an existing binding. -/
theorem findVal_insertKey_pres (d : List (Str × Nat)) (k0 : Str) (v0 : Nat)
    (k : Str) (v : Nat) (h : findVal d k = some v) :
    findVal (insertKey d k0 v0) k = some v := by
  unfold insertKey
  split
  · rw [findVal_append_one, h]
    rfl
  · exact h
/-- A lookup that misses keeps missing or picks up exactly the appended
key of an insertKey step. -/
theorem findVal_insertKey_none (d : List (Str × Nat)) (k0 : Str) (v0 : Nat)
    (k : Str) (h : findVal d k = none) :
    findVal (insertKey d k0 v0) k =
      (if k = k0 ∧ k ≠ [] then some v0 else none) := by
  unfold insertKey
  split
  · rename_i hcond
    rw [findVal_append_one, h, Option.none_or]
    by_cases hk : k0 = k
    · subst hk
      simp [hcond.1]
    · have hk2 : ¬ k = k0 := fun hc => hk hc.symm
      simp [hk, hk2]
  · rename_i hcond
    rw [h]
    by_cases hk : k = k0
    · subst hk
      have hke : k = [] := by
        by_contra hne
        exact hcond ⟨hne, h⟩
      simp [hke]
    · simp [hk]
/-- Folding the keys of one parish into the dict: existing bindings are
kept, and a previously missing key is bound to the parish id exactly
when it is one of the nonempty keys of the list. -/
theorem findVal_foldl_insert (i : Nat) (ks : List Str) (d : List (Str × Nat))
    (k : Str) :
    (∀ v, findVal d k = some v →
      findVal (ks.foldl (fun a k0 => insertKey a k0 i) d) k = some v)
  ∧ (findVal d k = none →
      findVal (ks.foldl (fun a k0 => insertKey a k0 i) d) k =
        (if k ≠ [] ∧ k ∈ ks then some i else none)) := by
  induction ks generalizing d with
  | nil => exact ⟨fun v hv => hv, fun h => by simp [h]⟩
  | cons k0 ks ih =>
    constructor
    · intro v hv
      exact (ih (insertKey d k0 i)).1 v (findVal_insertKey_pres d k0 i k v hv)
    · intro h
      rw [List.foldl_cons]
      by_cases hk : k = k0 ∧ k ≠ []
      · have h1 : findVal (insertKey d k0 i) k = some i := by
          rw [findVal_insertKey_none d k0 i k h, if_pos hk]
        rw [(ih (insertKey d k0 i)).1 i h1,
          if_pos ⟨hk.2, by rw [hk.1] ; exact List.mem_cons_self k0 ks⟩]
      · have h1 : findVal (insertKey d k0 i) k = none := by
          rw [findVal_insertKey_none d k0 i k h, if_neg hk]
        rw [(ih (insertKey d k0 i)).2 h1]
        by_cases hne : k = []
        · simp [hne]
        · have hkk : ¬ k = k0 := fun hc => hk ⟨hc, hne⟩
          simp [hne, hkk]
/-- C2 helper: the effect of inserting one parish into the dict. -/
theorem findVal_insertParish (d : List (Str × Nat)) (p : RefParish) (k : Str) :
    (∀ v, findVal d k = some v → findVal (insertParish d p) k = some v)
  ∧ (findVal d k = none →
      findVal (insertParish d p) k = (if keyHits k p then some p.id else none)) := by
  unfold insertParish
  refine ⟨(findVal_foldl_insert p.id (parishKeys p) d k).1, fun h => ?_⟩
  rw [(findVal_foldl_insert p.id (parishKeys p) d k).2 h]
  unfold keyHits
  by_cases hne : k = []
  · simp [hne]
  · by_cases hm : k ∈ parishKeys p
    · rw [if_pos ⟨hne, hm⟩, if_pos]
      rw [Bool.and_eq_true]
      exact ⟨by simp [List.isEmpty_iff, hne], List.elem_eq_true_of_mem hm⟩
    · rw [if_neg (fun hand => hm hand.2), if_neg]
      rw [Bool.and_eq_true]
      intro hand
      exact hm (List.mem_of_elem_eq_true (by simpa using hand.2))
/-- C2: Parish Key Index construction is first-write-wins: a lookup of
any key returns the id of the first parish in reference input order
that generates that key under any of its variants (nonempty keys only,
as the source skips falsy keys), and an insertion step never overwrites
a binding that is already present. -/
theorem index_first_write_wins :
    (∀ (ps : List RefParish) (k : Str),
        findVal (buildLookup ps) k =
          (ps.find? (keyHits k)).map RefParish.id)
  ∧ (∀ (d : List (Str × Nat)) (p : RefParish) (k : Str) (v : Nat),
        findVal d k = some v → findVal (insertParish d p) k = some v) := by
  constructor
  · intro ps k
    suffices hgen : ∀ d : List (Str × Nat), findVal d k = none →
        findVal (ps.foldl insertParish d) k =
          (ps.find? (keyHits k)).map RefParish.id by
      exact hgen [] (findVal_nil k)
    induction ps with
    | nil => intro d h; simpa using h
    | cons p ps ih =>
      intro d h
      rw [List.foldl_cons]
      by_cases hp : keyHits k p
      · rw [List.find?_cons_of_pos _ hp]
        have h1 : findVal (insertParish d p) k = some p.id := by
          rw [(findVal_insertParish d p k).2 h]
          simp [hp]
        have : ∀ qs : List RefParish, ∀ d2 : List (Str × Nat),
            findVal d2 k = some p.id →
            findVal (qs.foldl insertParish d2) k = some p.id := by
          intro qs
          induction qs with
          | nil => intro d2 h2; simpa using h2
          | cons q qs ihq =>
            intro d2 h2
            exact ihq _ ((findVal_insertParish d2 q k).1 p.id h2)
        simpa using this ps (insertParish d p) h1
      · rw [List.find?_cons_of_neg _ (by simpa using hp)]
        have h1 : findVal (insertParish d p) k = none := by
          rw [(findVal_insertParish d p k).2 h]
          simp [hp]
        exact ih (insertParish d p) h1
  · intro d p k v h
    exact (findVal_insertParish d p k).1 v h
/-- Witness for C2: inserting a colliding parish leaves the earlier
binding in place. -/
theorem index_first_write_wins_witness :
    findVal (insertParish witnessDict witnessParish) ('d' :: []) = some 1 :=
  index_first_write_wins.2 witnessDict witnessParish ('d' :: []) 1 (by decide)
/-- C3: the Temporal Interval Expander clips each record's interval to
the window [1851, 1990] and emits one row per integer year of the
clipped inclusive range, dropping records whose clipped interval is
empty; in particular a record with fromYear 1800 and toYear 1860 yields
exactly the ten rows for 1851..1860, and a record with toYear 1830
yields zero rows. -/
theorem expander_clips_to_window :
    (∀ r : ConcRow, (expandRec r).map YearRow.year =
        if clipStart r ≤ clipEnd r then
          (List.range (clipEnd r - clipStart r + 1).toNat).map
            (fun k => clipStart r + (k : Int))
        else [])
  ∧ (expandRec { district := [], parish := none, matched := false,
                 fromYear := some 1800, toYear := some 1860 }).map YearRow.year =
      [1851, 1852, 1853, 1854, 1855, 1856, 1857, 1858, 1859, 1860]
  ∧ expandRec { district := [], parish := none, matched := false,
                fromYear := some 1800, toYear := some 1830 } = [] := by
  refine ⟨fun r => ?_, by decide, by decide⟩
  unfold expandRec
  by_cases h : clipStart r ≤ clipEnd r
  · rw [if_pos (show (0 : Int) < clipEnd r - clipStart r + 1 by omega), if_pos h,
      List.map_map]
    rfl
  · rw [if_neg (show ¬ (0 : Int) < clipEnd r - clipStart r + 1 by omega), if_neg h]
    rfl
/-- C4: every DistrictYearCoverage row produced by the aggregation has a
positive active row count, a matched count bounded by the active count,
and a matched share between 0 and 1. -/
theorem coverage_row_bounds (rows : List YearRow) (c : CoverageRow)
    (hc : c ∈ aggregate rows) :
    0 < c.activeParishRows ∧ c.matchedParishRows ≤ c.activeParishRows ∧
      0 ≤ c.matchedShare ∧ c.matchedShare ≤ 1 := by
  unfold aggregate at hc
  rw [List.mem_map] at hc
  obtain ⟨k, hk, rfl⟩ := hc
  rw [List.mem_dedup, List.mem_map] at hk
  obtain ⟨r, hr, hkey⟩ := hk
  have hrf : r ∈ rows.filter (fun r2 => r2.year == k.1 && r2.district == k.2) := by
    rw [List.mem_filter]
    refine ⟨hr, ?_⟩
    rw [← hkey]
    simp
  have hpos : 0 < (rows.filter (fun r2 => r2.year == k.1 && r2.district == k.2)).length :=
    List.length_pos.mpr (List.ne_nil_of_mem hrf)
  refine ⟨hpos, List.length_filter_le _ _, ?_, ?_⟩
  · exact div_nonneg (by positivity) (by positivity)
  · rw [div_le_one (by exact_mod_cast hpos)]
    exact_mod_cast List.length_filter_le _ _
/-- Witness for C4 at a concrete one-row input. -/
theorem coverage_row_bounds_witness :
    0 < sampleCoverageRow.activeParishRows ∧
      sampleCoverageRow.matchedParishRows ≤ sampleCoverageRow.activeParishRows ∧
      0 ≤ sampleCoverageRow.matchedShare ∧ sampleCoverageRow.matchedShare ≤ 1 :=
  coverage_row_bounds sampleYearRows sampleCoverageRow
    (by simp [aggregate, sampleYearRows, sampleCoverageRow])
/-- C7 counterexample: the key bane is a normalizer fixed point that
contains the letter e, yet its e-to-a vowel variant bana is not
generated, because the source suppresses the e-to-a direction whenever
the key also contains an a. -/
theorem vowel_variant_counterexample :
    make_key_improved false ('b' :: 'a' :: 'n' :: 'e' :: []) =
        ('b' :: 'a' :: 'n' :: 'e' :: [])
    ∧ ('e' ∈ ('b' :: 'a' :: 'n' :: 'e' :: []))
    ∧ replaceAll 'e' 'a' ('b' :: 'a' :: 'n' :: 'e' :: []) ∉
        make_vowel_variants ('b' :: 'a' :: 'n' :: 'e' :: []) := by
  refine ⟨?_, by decide, by decide⟩
  simp [make_key_improved, pyStrip, trimL, trimR, pyLower, strip_accents, nfd, isMn,
    strip_brackets, subBrA, normalize_st_saint, subSt, subSaint, subCum, ampSub,
    hyphenSlashSub, punctSub, collapseWs, isWordChar, isSpaceChar, nonWordHead,
    countDots, wordAfterDots, saintL, withReplacement, andReplacement, combiningCircumflex]
/-- C7 amended: the vowel-variant generator yields the a-to-e, e-to-i
and i-to-e substitutions unconditionally when the triggering letter is
present, yields the e-to-a substitution only when the key contains no a,
and yields nothing else. -/
theorem vowel_variants_characterization (s : Str) :
    ('a' ∈ s → replaceAll 'a' 'e' s ∈ make_vowel_variants s)
  ∧ ('e' ∈ s ∧ 'a' ∉ s → replaceAll 'e' 'a' s ∈ make_vowel_variants s)
  ∧ ('e' ∈ s → replaceAll 'e' 'i' s ∈ make_vowel_variants s)
  ∧ ('i' ∈ s → replaceAll 'i' 'e' s ∈ make_vowel_variants s)
  ∧ (∀ t ∈ make_vowel_variants s,
      t = replaceAll 'a' 'e' s ∨ t = replaceAll 'e' 'a' s ∨
        t = replaceAll 'e' 'i' s ∨ t = replaceAll 'i' 'e' s) := by
  unfold make_vowel_variants
  refine ⟨fun h => ?_, fun h => ?_, fun h => ?_, fun h => ?_, fun t ht => ?_⟩
  · simp [List.elem_eq_true_of_mem h]
    tauto
  · simp [List.elem_eq_true_of_mem h.1, List.mem_of_elem_eq_true, h.2,
      (by by_contra hc ; exact h.2 (List.mem_of_elem_eq_true (by simpa using hc)) :
        s.contains 'a' = false)]
    tauto
  · simp [List.elem_eq_true_of_mem h]
    tauto
  · simp [List.elem_eq_true_of_mem h]
    tauto
  · simp only [List.mem_append] at ht
    rcases ht with ((h1 | h1) | h1) | h1 <;> split at h1 <;> simp_all <;> tauto
/-- Witness for C7 amended at the concrete key lime. -/
theorem vowel_variants_characterization_witness :
    replaceAll 'e' 'a' ('l' :: 'i' :: 'm' :: 'e' :: []) ∈
      make_vowel_variants ('l' :: 'i' :: 'm' :: 'e' :: []) ∧
    replaceAll 'i' 'e' ('l' :: 'i' :: 'm' :: 'e' :: []) ∈
      make_vowel_variants ('l' :: 'i' :: 'm' :: 'e' :: []) :=
  ⟨(vowel_variants_characterization _).2.1 (by decide),
   (vowel_variants_characterization _).2.2.2.1 (by decide)⟩
/-- C9: the Centroid Imputer is strictly one-directional: a summary row
whose usable-backbone flag is nonzero is outside the needs mask and is
returned unchanged, so it never receives locationImputed and its
centroid coordinates are never modified. -/
theorem imputer_one_directional (offMap : Str → Option Pt)
    (nearest : Pt → Option (Str × ℚ × Pt)) (r : SRow)
    (h : r.usable1851Backbone ≠ 0) :
    imputeRow offMap nearest r = r := by
  unfold imputeRow
  rw [if_neg]
  simp [h]
/-- Witness for C9 at a concrete usable row. -/
theorem imputer_one_directional_witness :
    imputeRow (fun _ => none) (fun _ => none) usableSampleRow = usableSampleRow :=
  imputer_one_directional _ _ _ (by decide)
/-- C10: the match result of a row depends only on its place name: two
rows of the same run with equal parish strings receive the same
matched index, matched flag and match method, whatever their district
and year fields are. -/
theorem match_depends_only_on_place_name (lk : List (Str × Nat)) (r1 r2 : UkRow)
    (h : r1.parish = r2.parish) :
    matched1851Index lk r1 = matched1851Index lk r2 ∧
      matchedCol lk r1 = matchedCol lk r2 ∧
      matchMethodCol lk r1 = matchMethodCol lk r2 := by
  unfold matched1851Index matchedCol matchMethodCol matched1851Index
  rw [h]
  exact ⟨rfl, rfl, rfl⟩
/-- Witness for C10 at the concrete row pair. -/
theorem match_depends_only_on_place_name_witness :
    matched1851Index [] sameNameRowA = matched1851Index [] sameNameRowB ∧
      matchedCol [] sameNameRowA = matchedCol [] sameNameRowB ∧
      matchMethodCol [] sameNameRowA = matchMethodCol [] sameNameRowB :=
  match_depends_only_on_place_name [] sameNameRowA sameNameRowB (by decide)
/-! Concrete reference data and evaluation lemmas used by the
counterexamples and witnesses of the resolver claims. -/
set_option maxHeartbeats 4000000 in
/-- Evaluation of the lookup dict built over the Dover table. -/
theorem doverLookup_eval :
    buildLookup doverParishes =
      [(['d', 'o', 'v', 'e', 'r'], 1), (['d', 'o', 'f', 'e', 'r'], 1),
       (['d', 'o', 'v', 'a', 'r'], 1), (['d', 'o', 'v', 'i', 'r'], 1)] := by
  simp [doverParishes, buildLookup, insertParish, insertKey, findVal, parishKeys,
    make_welsh_variants, make_vowel_variants, replaceAll, replace2, containsSub,
    startsWithL, subDivSuffix, matchDivSuffix, divWords, andWord, divisionWord,
    make_key_improved, pyStrip, trimL, trimR, pyLower, strip_accents, nfd, isMn,
    strip_brackets, subBrA, normalize_st_saint, subSt, subSaint, subCum, ampSub,
    hyphenSlashSub, punctSub, collapseWs, isWordChar, isSpaceChar, nonWordHead,
    countDots, wordAfterDots, saintL, withReplacement, andReplacement,
    combiningCircumflex, List.find?, List.foldl]
set_option maxHeartbeats 4000000 in
/-- Evaluation of the stage-1 variant list of the name Dover. -/
theorem doverVariants_eval :
    make_variants doverName =
      [(['d', 'o', 'v', 'e', 'r'], "exact"), (['d', 'o', 'f', 'e', 'r'], "welsh_variant"),
       (['d', 'o', 'v', 'a', 'r'], "vowel_variant"),
       (['d', 'o', 'v', 'i', 'r'], "vowel_variant")] := by
  simp [doverName, make_variants, make_welsh_variants, make_vowel_variants, replaceAll,
    replace2, containsSub, startsWithL, truncClause, make_key_improved, pyStrip, trimL,
    trimR, pyLower, strip_accents, nfd, isMn, strip_brackets, subBrA, normalize_st_saint,
    subSt, subSaint, subCum, ampSub, hyphenSlashSub, punctSub, collapseWs, isWordChar,
    isSpaceChar, nonWordHead, countDots, wordAfterDots, saintL, withReplacement,
    andReplacement, combiningCircumflex]
set_option maxHeartbeats 12000000 in
/-- Evaluation of the lookup dict built over the Shawdon table. -/
theorem shawdonLookup_eval :
    buildLookup shawdonParishes =
      [(['s', 'h', 'a', 'w', 'd', 'o', 'n', ' ', 'a', 'n', 'd', ' ',
         'w', 'o', 'o', 'd', 'h', 'o', 'u', 's', 'e'], 9),
       (['s', 'h', 'e', 'w', 'd', 'o', 'n', ' ', 'e', 'n', 'd', ' ',
         'w', 'o', 'o', 'd', 'h', 'o', 'u', 's', 'e'], 9),
       (['s', 'h', 'a', 'w', 'd', 'o', 'n', ' ', 'a', 'n', 'd', ' ',
         'w', 'o', 'o', 'd', 'h', 'o', 'u', 's', 'i'], 9),
       (['s', 'h', 'a', 'w', 'd', 'o', 'n', 'a', 'n', 'd',
         'w', 'o', 'o', 'd', 'h', 'o', 'u', 's', 'e'], 9),
       (['s', 'h', 'e', 'w', 'd', 'o', 'n', 'e', 'n', 'd',
         'w', 'o', 'o', 'd', 'h', 'o', 'u', 's', 'e'], 9),
       (['s', 'h', 'a', 'w', 'd', 'o', 'n', 'a', 'n', 'd',
         'w', 'o', 'o', 'd', 'h', 'o', 'u', 's', 'i'], 9)] := by
  simp [shawdonParishes, buildLookup, insertParish, insertKey, findVal, parishKeys,
    make_welsh_variants, make_vowel_variants, replaceAll, replace2, containsSub,
    startsWithL, subDivSuffix, matchDivSuffix, divWords, andWord, divisionWord,
    make_key_improved, pyStrip, trimL, trimR, pyLower, strip_accents, nfd, isMn,
    strip_brackets, subBrA, normalize_st_saint, subSt, subSaint, subCum, ampSub,
    hyphenSlashSub, punctSub, collapseWs, isWordChar, isSpaceChar, nonWordHead,
    countDots, wordAfterDots, saintL, withReplacement, andReplacement,
    combiningCircumflex, List.find?, List.foldl]
set_option maxHeartbeats 4000000 in
/-- Evaluation of the stage-1 variant list of the name Shawdon. -/
theorem shawdonVariants_eval :
    make_variants shawdonName =
      [(['s', 'h', 'a', 'w', 'd', 'o', 'n'], "exact"),
       (['s', 'h', 'e', 'w', 'd', 'o', 'n'], "vowel_variant")] := by
  simp [shawdonName, make_variants, make_welsh_variants, make_vowel_variants, replaceAll,
    replace2, containsSub, startsWithL, truncClause, make_key_improved, pyStrip, trimL,
    trimR, pyLower, strip_accents, nfd, isMn, strip_brackets, subBrA, normalize_st_saint,
    subSt, subSaint, subCum, ampSub, hyphenSlashSub, punctSub, collapseWs, isWordChar,
    isSpaceChar, nonWordHead, countDots, wordAfterDots, saintL, withReplacement,
    andReplacement, combiningCircumflex]
set_option maxHeartbeats 4000000 in
/-- Evaluation of the no-space key of the name Shawdon. -/
theorem shawdonKey_eval :
    noSpaceKey shawdonName = ['s', 'h', 'a', 'w', 'd', 'o', 'n'] := by
  simp [shawdonName, noSpaceKey, make_key_improved, pyStrip, trimL, trimR, pyLower,
    strip_accents, nfd, isMn, strip_brackets, subBrA, normalize_st_saint, subSt,
    subSaint, subCum, ampSub, hyphenSlashSub, punctSub, collapseWs, isWordChar,
    isSpaceChar, nonWordHead, countDots, wordAfterDots, saintL, withReplacement,
    andReplacement, combiningCircumflex]
set_option maxHeartbeats 4000000 in
/-- Evaluation of the stage-1 variant list of the unmatched name. -/
theorem unmatchedVariants_eval :
    make_variants unmatchedName = [(['q', 'q', 'q', 'q', 'q', 'q'], "exact")] := by
  simp [unmatchedName, make_variants, make_welsh_variants, make_vowel_variants,
    replaceAll, replace2, containsSub, startsWithL, truncClause, make_key_improved,
    pyStrip, trimL, trimR, pyLower, strip_accents, nfd, isMn, strip_brackets, subBrA,
    normalize_st_saint, subSt, subSaint, subCum, ampSub, hyphenSlashSub, punctSub,
    collapseWs, isWordChar, isSpaceChar, nonWordHead, countDots, wordAfterDots, saintL,
    withReplacement, andReplacement, combiningCircumflex]
set_option maxHeartbeats 4000000 in
/-- Evaluation of the no-space key of the unmatched name. -/
theorem unmatchedKey_eval :
    noSpaceKey unmatchedName = ['q', 'q', 'q', 'q', 'q', 'q'] := by
  simp [unmatchedName, noSpaceKey, make_key_improved, pyStrip, trimL, trimR, pyLower,
    strip_accents, nfd, isMn, strip_brackets, subBrA, normalize_st_saint, subSt,
    subSaint, subCum, ampSub, hyphenSlashSub, punctSub, collapseWs, isWordChar,
    isSpaceChar, nonWordHead, countDots, wordAfterDots, saintL, withReplacement,
    andReplacement, combiningCircumflex]
/-- The Dover row resolves to parish 1 by the exact variant. -/
theorem dover_resolve :
    resolveName (buildLookup doverParishes) doverName = some (1, "exact") := by
  unfold resolveName stage1Find
  rw [doverVariants_eval, doverLookup_eval]
  decide
/-- Stage 1 finds nothing for Shawdon against the Shawdon table. -/
theorem shawdon_stage1_none :
    stage1Find (buildLookup shawdonParishes) shawdonName = none := by
  unfold stage1Find
  rw [shawdonVariants_eval, shawdonLookup_eval]
  decide
/-- Shawdon resolves through the substring scan with the method tag the
source actually writes. -/
theorem shawdon_resolve :
    resolveName (buildLookup shawdonParishes) shawdonName =
      some (9, "substring_match") := by
  unfold resolveName
  rw [shawdon_stage1_none]
  unfold stage1bFind
  rw [shawdonKey_eval, shawdonLookup_eval]
  decide
/-- The unmatched name resolves to nothing. -/
theorem unmatched_resolve :
    resolveName (buildLookup doverParishes) unmatchedName = none := by
  unfold resolveName stage1Find
  rw [unmatchedVariants_eval, doverLookup_eval]
  unfold stage1bFind
  rw [unmatchedKey_eval]
  decide
/-- C1 counterexample: a record whose interval 1800..1830 does not
overlap 1851 is marked not-eligible, yet a match is still attempted and
recorded for it: its matched flag is true and its matched index is the
reference parish.  Eligibility does not gate the resolver; it only
filters the summary outputs. -/
theorem eligibility_not_gating_counterex :
    eligible_1851 ineligibleRow = false ∧
      matchedCol (buildLookup doverParishes) ineligibleRow = true ∧
      matched1851Index (buildLookup doverParishes) ineligibleRow = some 1 := by
  have hidx : matched1851Index (buildLookup doverParishes) ineligibleRow = some 1 := by
    unfold matched1851Index
    rw [show ineligibleRow.parish = some doverName from rfl]
    rw [Option.some_bind, dover_resolve]
    rfl
  refine ⟨by decide, ?_, hidx⟩
  unfold matchedCol
  rw [hidx]
  rfl
/-- C1 amended: records outside the 1851 window are marked not-eligible
by the eligible_1851 flag, but the resolver still runs on their place
names and its result is recorded in the match columns; eligibility only
filters the summary statistics and report outputs. -/
theorem resolver_runs_regardless_of_eligibility (lk : List (Str × Nat)) (r : UkRow)
    (n : Str) (helig : eligible_1851 r = false) (hp : r.parish = some n) :
    matched1851Index lk r = (resolveName lk n).map (fun e => e.1) ∧
      matchMethodCol lk r = (resolveName lk n).map (fun e => e.2) ∧
      matchedCol lk r = ((resolveName lk n).map (fun e => e.1)).isSome := by
  unfold matchedCol matched1851Index matchMethodCol
  rw [hp]
  exact ⟨rfl, rfl, rfl⟩
/-- Witness for C1 amended at the concrete ineligible Dover row. -/
theorem resolver_runs_regardless_of_eligibility_witness :
    matched1851Index (buildLookup doverParishes) ineligibleRow =
        (resolveName (buildLookup doverParishes) doverName).map (fun e => e.1) ∧
      matchMethodCol (buildLookup doverParishes) ineligibleRow =
        (resolveName (buildLookup doverParishes) doverName).map (fun e => e.2) ∧
      matchedCol (buildLookup doverParishes) ineligibleRow =
        ((resolveName (buildLookup doverParishes) doverName).map (fun e => e.1)).isSome :=
  resolver_runs_regardless_of_eligibility (buildLookup doverParishes) ineligibleRow
    doverName (by decide) rfl
/-- C5 counterexample: the Shawdon row is matched by the substring scan,
but the method value the source records is the string substring_match,
not the enum value substring the claim states. -/
theorem substring_method_label_counterex :
    matchMethodCol (buildLookup shawdonParishes) shawdonRow =
        some "substring_match" ∧
      (some "substring_match" : Option String) ≠ some "substring" := by
  refine ⟨?_, by decide⟩
  unfold matchMethodCol
  rw [show shawdonRow.parish = some shawdonName from rfl]
  rw [Option.some_bind, shawdon_resolve]
  rfl
/-- C5 amended: when stage 1 found nothing, the resolver returns a
substring result exactly when the no-space key has length at least 5 and
some reference key properly contains it with length excess at most 15;
the first such key in dict insertion order wins, and the recorded method
tag is substring_match. -/
theorem substring_stage_spec (lk : List (Str × Nat)) (name : Str) (i : Nat)
    (m : String) (h1 : stage1Find lk name = none) :
    resolveName lk name = some (i, m) ↔
      (m = "substring_match" ∧ 5 ≤ (noSpaceKey name).length ∧
        ∃ d1 e d2, lk = d1 ++ e :: d2 ∧ e.2 = i ∧
          containsSub e.1 (noSpaceKey name) = true ∧ noSpaceKey name ≠ e.1 ∧
          ((e.1.length : Int) - ((noSpaceKey name).length : Int) ≤ 15) ∧
          ∀ e2 ∈ d1, stage1bCond (noSpaceKey name) e2 = false) := by
  unfold resolveName
  rw [h1]
  unfold stage1bFind
  by_cases hlen : (noSpaceKey name).length < 5
  · rw [if_pos hlen]
    constructor
    · intro hc
      exact absurd hc (by simp)
    · intro hc
      omega
  · rw [if_neg hlen]
    constructor
    · intro hc
      rw [Option.map_eq_some'] at hc
      obtain ⟨e, hfind, hval⟩ := hc
      rw [List.find?_eq_some] at hfind
      obtain ⟨hpe, d1, d2, heq, hbefore⟩ := hfind
      have hm : m = "substring_match" := by
        have := congrArg Prod.snd hval
        simpa using this.symm
      have hi : e.2 = i := by
        have := congrArg Prod.fst hval
        simpa using this
      unfold stage1bCond at hpe
      rw [Bool.and_eq_true, Bool.and_eq_true] at hpe
      refine ⟨hm, by omega, d1, e, d2, heq, hi, hpe.1.1, ?_, ?_, ?_⟩
      · have := hpe.1.2
        simpa using this
      · have := hpe.2
        simpa using this
      · intro e2 he2
        have := hbefore e2 he2
        simpa using this
    · rintro ⟨hm, hlen5, d1, e, d2, heq, hi, hcs, hne, hexcess, hfirst⟩
      subst hm
      subst heq
      have hfind : List.find? (stage1bCond (noSpaceKey name)) (d1 ++ e :: d2) =
          some e := by
        rw [List.find?_eq_some]
        refine ⟨?_, d1, d2, rfl, fun a ha => by simp [hfirst a ha]⟩
        unfold stage1bCond
        rw [Bool.and_eq_true, Bool.and_eq_true]
        exact ⟨⟨hcs, by simpa using hne⟩, by simpa using hexcess⟩
      rw [hfind]
      simp [hi]
/-- Witness for C5 amended: the Shawdon instance satisfies the substring
characterization. -/
theorem substring_stage_spec_witness :
    ("substring_match" : String) = "substring_match" ∧
      5 ≤ (noSpaceKey shawdonName).length ∧
      ∃ d1 e d2, buildLookup shawdonParishes = d1 ++ e :: d2 ∧ e.2 = 9 ∧
        containsSub e.1 (noSpaceKey shawdonName) = true ∧
        noSpaceKey shawdonName ≠ e.1 ∧
        ((e.1.length : Int) - ((noSpaceKey shawdonName).length : Int) ≤ 15) ∧
        ∀ e2 ∈ d1, stage1bCond (noSpaceKey shawdonName) e2 = false :=
  (substring_stage_spec (buildLookup shawdonParishes) shawdonName 9
    "substring_match" shawdon_stage1_none).mp shawdon_resolve
/-- C6 counterexample: an eligible row whose name matches nothing gets
matched false and a null matched index, but its match method is null,
not the string unmatched the claim states. -/
theorem unmatched_method_counterex :
    matchedCol (buildLookup doverParishes) unmatchedRow = false ∧
      matched1851Index (buildLookup doverParishes) unmatchedRow = none ∧
      matchMethodCol (buildLookup doverParishes) unmatchedRow = none ∧
      matchMethodCol (buildLookup doverParishes) unmatchedRow ≠ some "unmatched" := by
  have hres : matchMethodCol (buildLookup doverParishes) unmatchedRow = none := by
    unfold matchMethodCol
    rw [show unmatchedRow.parish = some unmatchedName from rfl]
    rw [Option.some_bind, unmatched_resolve]
    rfl
  have hidx : matched1851Index (buildLookup doverParishes) unmatchedRow = none := by
    unfold matched1851Index
    rw [show unmatchedRow.parish = some unmatchedName from rfl]
    rw [Option.some_bind, unmatched_resolve]
    rfl
  refine ⟨?_, hidx, hres, ?_⟩
  · unfold matchedCol
    rw [hidx]
    rfl
  · rw [hres]
    decide
/-- C6 amended: the matched flag always equals non-nullity of the
matched index, and a record on which the resolver finds nothing (or
whose name is null) gets matched false, a null matched index, and a
null match method (no unmatched enum value is ever written). -/
theorem unmatched_marking (lk : List (Str × Nat)) (r : UkRow) :
    matchedCol lk r = (matched1851Index lk r).isSome
  ∧ (∀ n, r.parish = some n → resolveName lk n = none →
      matchedCol lk r = false ∧ matched1851Index lk r = none ∧
        matchMethodCol lk r = none)
  ∧ (r.parish = none →
      matchedCol lk r = false ∧ matched1851Index lk r = none ∧
        matchMethodCol lk r = none) := by
  refine ⟨rfl, fun n hn hres => ?_, fun hn => ?_⟩
  · unfold matchedCol matched1851Index matchMethodCol
    rw [hn]
    simp [hres]
  · unfold matchedCol matched1851Index matchMethodCol
    rw [hn]
    simp
/-- Witness for C6 amended at the concrete unmatched row. -/
theorem unmatched_marking_witness :
    matchedCol (buildLookup doverParishes) unmatchedRow = false ∧
      matched1851Index (buildLookup doverParishes) unmatchedRow = none ∧
      matchMethodCol (buildLookup doverParishes) unmatchedRow = none :=
  (unmatched_marking (buildLookup doverParishes) unmatchedRow).2.1 unmatchedName rfl
    unmatched_resolve
/-! Character-class lemmas for the idempotence development. -/

/-- A word character is not whitespace. -/
theorem word_not_space (c : Char) (h : isWordChar c = true) : isSpaceChar c = false := by
  cases hs : isSpaceChar c
  · rfl
  · exfalso
    unfold isSpaceChar at hs
    rcases (by simpa using hs : ((c = ' ' ∨ c = '\t') ∨ c = '\n') ∨ c = '\r') with
      ((h1 | h1) | h1) | h1 <;> subst h1 <;> exact absurd h (by decide)

/-- A whitespace character is not a word character. -/
theorem space_not_word (c : Char) (h : isSpaceChar c = true) : isWordChar c = false := by
  cases hw : isWordChar c
  · rfl
  · rw [word_not_space c hw] at h
    cases h

/-- Code-point inventory of the allowed characters. -/
theorem allowed_mem_ranges (kc : Bool) (c : Char) (h : allowedChar kc c = true) :
    (97 ≤ c.toNat ∧ c.toNat ≤ 122) ∨ (48 ≤ c.toNat ∧ c.toNat ≤ 57) ∨
      c.toNat = 95 ∨ c.toNat = 32 ∨ (kc = true ∧ c.toNat = 44) := by
  unfold allowedChar isWordChar isUpperCode at h
  simp only [Bool.or_eq_true, Bool.and_eq_true, Bool.not_eq_true',
    decide_eq_true_eq, decide_eq_false_iff_not] at h
  rcases h with (⟨((h1 | h1) | h1) | h1, hnu⟩ | he) | ⟨hkc, hc⟩
  · exact absurd h1 hnu
  · exact Or.inl h1
  · exact Or.inr (Or.inl h1)
  · subst h1
    exact Or.inr (Or.inr (Or.inl rfl))
  · subst he
    exact Or.inr (Or.inr (Or.inr (Or.inl rfl)))
  · subst hc
    exact Or.inr (Or.inr (Or.inr (Or.inr ⟨hkc, rfl⟩)))

/-- An allowed character differs from any character whose code point is
outside the allowed inventory. -/
theorem allowed_ne (kc : Bool) (c : Char) (h : allowedChar kc c = true) (x : Char)
    (hx : ¬((97 ≤ x.toNat ∧ x.toNat ≤ 122) ∨ (48 ≤ x.toNat ∧ x.toNat ≤ 57) ∨
      x.toNat = 95 ∨ x.toNat = 32 ∨ x.toNat = 44)) : c ≠ x := by
  intro he
  subst he
  rcases allowed_mem_ranges kc c h with h1 | h1 | h1 | h1 | ⟨_, h1⟩ <;>
    exact hx (by tauto)

/-- Structure of the allowed classes. -/
theorem allowed_split (kc : Bool) (c : Char) (h : allowedChar kc c = true) :
    (isWordChar c = true ∧ isUpperCode c = false) ∨ c = ' ' ∨
      (kc = true ∧ c = ',') := by
  unfold allowedChar at h
  simp only [Bool.or_eq_true, Bool.and_eq_true, Bool.not_eq_true',
    decide_eq_true_eq] at h
  tauto

/-- Lowercasing fixes every allowed character. -/
theorem pyLower_allowed_fix (kc : Bool) (c : Char) (h : allowedChar kc c = true) :
    pyLower c = c := by
  unfold pyLower
  rw [if_neg (allowed_ne kc c h 'Ô' (by decide)),
    if_neg (allowed_ne kc c h 'Â' (by decide)),
    if_neg (allowed_ne kc c h 'Ê' (by decide)),
    if_neg (allowed_ne kc c h 'Î' (by decide)),
    if_neg (allowed_ne kc c h 'Û' (by decide)),
    if_neg (allowed_ne kc c h 'Ŵ' (by decide)),
    if_neg (allowed_ne kc c h 'Ŷ' (by decide)), dif_neg]
  rcases allowed_mem_ranges kc c h with h1 | h1 | h1 | h1 | ⟨_, h1⟩ <;> omega

/-- Lowercasing never yields an ASCII uppercase letter. -/
theorem pyLower_not_upper (c : Char) : isUpperCode (pyLower c) = false := by
  unfold pyLower
  split_ifs with h1 h2 h3 h4 h5 h6 h7 h8
  · decide
  · decide
  · decide
  · decide
  · decide
  · decide
  · decide
  · show isUpperCode (Char.ofNatAux (c.toNat + 32) _) = false
    unfold isUpperCode
    rw [show (Char.ofNatAux (c.toNat + 32)
      (Or.inl (by omega))).toNat = c.toNat + 32 from rfl]
    simp only [decide_eq_false_iff_not]
    omega
  · unfold isUpperCode
    simp only [decide_eq_false_iff_not]
    omega

/-- NFD decomposition fixes every allowed character. -/
theorem nfd_allowed_fix (kc : Bool) (c : Char) (h : allowedChar kc c = true) :
    nfd c = [c] := by
  unfold nfd
  rw [if_neg (allowed_ne kc c h 'ô' (by decide)),
    if_neg (allowed_ne kc c h 'â' (by decide)),
    if_neg (allowed_ne kc c h 'ê' (by decide)),
    if_neg (allowed_ne kc c h 'î' (by decide)),
    if_neg (allowed_ne kc c h 'û' (by decide)),
    if_neg (allowed_ne kc c h 'ŵ' (by decide)),
    if_neg (allowed_ne kc c h 'ŷ' (by decide)),
    if_neg (allowed_ne kc c h 'Ô' (by decide)),
    if_neg (allowed_ne kc c h 'Â' (by decide)),
    if_neg (allowed_ne kc c h 'Ê' (by decide)),
    if_neg (allowed_ne kc c h 'Î' (by decide)),
    if_neg (allowed_ne kc c h 'Û' (by decide)),
    if_neg (allowed_ne kc c h 'Ŵ' (by decide)),
    if_neg (allowed_ne kc c h 'Ŷ' (by decide))]

/-- An allowed character is not a combining mark of the model. -/
theorem isMn_allowed (kc : Bool) (c : Char) (h : allowedChar kc c = true) :
    isMn c = false := by
  unfold isMn
  exact decide_eq_false (allowed_ne kc c h combiningCircumflex (by decide))

/-- An allowed whitespace character is the blank. -/
theorem allowed_space_blank (kc : Bool) (c : Char) (h : allowedChar kc c = true)
    (hs : isSpaceChar c = true) : c = ' ' := by
  rcases allowed_split kc c h with ⟨hw, _⟩ | he | ⟨_, he⟩
  · rw [word_not_space c hw] at hs
    cases hs
  · exact he
  · subst he
    cases hs

/-! Token-scanner lemmas. -/

/-- A successful starts-with test decomposes the scanned list. -/
theorem startsWithL_decomp (w : Str) : ∀ z : Str, startsWithL w z = true →
    z = w ++ z.drop w.length := by
  induction w with
  | nil => intro z _; simp
  | cons a as ih =>
    intro z hz
    cases z with
    | nil => cases hz
    | cons b bs =>
      unfold startsWithL at hz
      rw [Bool.and_eq_true, decide_eq_true_eq] at hz
      obtain ⟨h1, h2⟩ := hz
      subst h1
      simpa using ih bs h2

/-- A successful starts-with test bounds the length. -/
theorem startsWithL_length (w : Str) : ∀ z : Str, startsWithL w z = true →
    w.length ≤ z.length := by
  induction w with
  | nil => intro z _; simp
  | cons a as ih =>
    intro z hz
    cases z with
    | nil => cases hz
    | cons b bs =>
      unfold startsWithL at hz
      rw [Bool.and_eq_true] at hz
      simpa using ih bs hz.2

/-- Dropping within an initial segment commutes with append. -/
theorem drop_append_of_le {α : Type} : ∀ (u : List α) (n : Nat) (t : List α),
    n ≤ u.length → (u ++ t).drop n = u.drop n ++ t := by
  intro u
  induction u with
  | nil =>
    intro n t h
    have h0 : n = 0 := by simpa using h
    subst h0
    simp
  | cons c u2 ih =>
    intro n t h
    cases n with
    | zero => rfl
    | succ m => simpa using ih m t (by simpa using h)

/-- A token found with the no-boundary flag set is found with the flag
clear. -/
theorem hasTokB_true_false (w : Str) (s : Str) (h : hasTokB w true s = true) :
    hasTokB w false s = true := by
  cases s with
  | nil => cases h
  | cons c r =>
    unfold hasTokB at h ⊢
    simp only [Bool.not_true, Bool.false_and, Bool.false_or] at h
    rw [h]
    simp

/-- Contrapositive form of hasTokB_true_false. -/
theorem hasTokB_mono_false (w : Str) (s : Str) (h : hasTokB w false s = false) :
    hasTokB w true s = false := by
  cases hv : hasTokB w true s
  · rfl
  · rw [hasTokB_true_false w s hv] at h
    cases h

/-- When the next character is not a word character (or the string
ends), the flag value is irrelevant. -/
theorem hasTokB_nonword_head (w0 : Char) (wr : Str) (hw0 : isWordChar w0 = true)
    (s : Str) (hs : nonWordHead s = true) :
    hasTokB (w0 :: wr) false s = hasTokB (w0 :: wr) true s := by
  cases s with
  | nil => rfl
  | cons c r =>
    unfold nonWordHead at hs
    rw [Bool.not_eq_true'] at hs
    have hne : (decide (w0 = c)) = false :=
      decide_eq_false (fun he => by subst he; rw [hw0] at hs; cases hs)
    unfold hasTokB
    unfold startsWithL
    rw [hne]
    simp

/-- An all-whitespace string contains no word token. -/
theorem allspace_noTok (w0 : Char) (wr : Str) (hw0 : isWordChar w0 = true) :
    ∀ (t : Str), (∀ c ∈ t, isSpaceChar c = true) → ∀ b,
      hasTokB (w0 :: wr) b t = false := by
  intro t
  induction t with
  | nil => intro _ _; rfl
  | cons c r ih =>
    intro ht b
    have hc : isSpaceChar c = true := ht c (List.mem_cons_self c r)
    have hne : (decide (w0 = c)) = false :=
      decide_eq_false (fun he => by
        subst he
        rw [word_not_space w0 hw0] at hc
        cases hc)
    unfold hasTokB startsWithL
    rw [hne, space_not_word c hc]
    simpa using ih (fun x hx => ht x (List.mem_cons_of_mem c hx)) false

/-- Appending trailing whitespace does not affect a starts-with test by
a word-only pattern. -/
theorem startsWith_append_spaces (w : Str) (hword : ∀ x ∈ w, isWordChar x = true)
    (t : Str) (ht : ∀ c ∈ t, isSpaceChar c = true) :
    ∀ u : Str, startsWithL w (u ++ t) = startsWithL w u := by
  induction w with
  | nil => intro u; rfl
  | cons w0 wr ih =>
    intro u
    cases u with
    | nil =>
      rw [List.nil_append]
      cases t with
      | nil => rfl
      | cons c r =>
        have hc : isSpaceChar c = true := ht c (List.mem_cons_self c r)
        have hne : (decide (w0 = c)) = false :=
          decide_eq_false (fun he => by
            subst he
            rw [word_not_space w0 (hword w0 (List.mem_cons_self w0 wr))] at hc
            cases hc)
        unfold startsWithL
        rw [hne]
        rfl
    | cons b u2 =>
      show (decide (w0 = b) && startsWithL wr (u2 ++ t)) =
        (decide (w0 = b) && startsWithL wr u2)
      rw [ih (fun x hx => hword x (List.mem_cons_of_mem w0 hx)) u2]

/-- Appending trailing whitespace does not affect the boundary test. -/
theorem nonWordHead_append_spaces (t : Str) (ht : ∀ c ∈ t, isSpaceChar c = true) :
    ∀ x : Str, nonWordHead (x ++ t) = nonWordHead x := by
  intro x
  cases x with
  | nil =>
    rw [List.nil_append]
    cases t with
    | nil => rfl
    | cons c r =>
      show (!isWordChar c) = true
      rw [space_not_word c (ht c (List.mem_cons_self c r))]
      rfl
  | cons c r => rfl

/-- Appending trailing whitespace does not create or destroy word
tokens. -/
theorem hasTokB_append_spaces (w0 : Char) (wr : Str)
    (hword : ∀ x ∈ w0 :: wr, isWordChar x = true)
    (t : Str) (ht : ∀ c ∈ t, isSpaceChar c = true) :
    ∀ (u : Str) (b : Bool),
      hasTokB (w0 :: wr) b (u ++ t) = hasTokB (w0 :: wr) b u := by
  intro u
  induction u with
  | nil =>
    intro b
    rw [List.nil_append]
    exact allspace_noTok w0 wr (hword w0 (List.mem_cons_self w0 wr)) t ht b
  | cons c u2 ih =>
    intro b
    show ((!b && startsWithL (w0 :: wr) ((c :: u2) ++ t) &&
        nonWordHead (((c :: u2) ++ t).drop (w0 :: wr).length)) ||
        hasTokB (w0 :: wr) (isWordChar c) (u2 ++ t)) =
      ((!b && startsWithL (w0 :: wr) (c :: u2) &&
        nonWordHead ((c :: u2).drop (w0 :: wr).length)) ||
        hasTokB (w0 :: wr) (isWordChar c) u2)
    rw [ih (isWordChar c),
      startsWith_append_spaces (w0 :: wr) hword t ht (c :: u2)]
    cases hs : startsWithL (w0 :: wr) (c :: u2)
    · simp
    · have hlen : (w0 :: wr).length ≤ (c :: u2).length :=
        startsWithL_length (w0 :: wr) (c :: u2) hs
      rw [drop_append_of_le (c :: u2) (w0 :: wr).length t hlen,
        nonWordHead_append_spaces t ht]

/-- Leading whitespace contributes nothing to the token scan when the
flag is clear. -/
theorem hasTokB_dropWhile_spaces (w0 : Char) (wr : Str)
    (hw0 : isWordChar w0 = true) :
    ∀ z : Str, hasTokB (w0 :: wr) false (z.dropWhile isSpaceChar) =
      hasTokB (w0 :: wr) false z := by
  intro z
  induction z with
  | nil => rfl
  | cons c r ih =>
    by_cases hc : isSpaceChar c = true
    · rw [List.dropWhile_cons_of_pos hc, ih]
      have hne : (decide (w0 = c)) = false :=
        decide_eq_false (fun he => by
          subst he
          rw [word_not_space w0 hw0] at hc
          cases hc)
      show hasTokB (w0 :: wr) false r =
        ((!false && (decide (w0 = c) && startsWithL wr r) &&
          nonWordHead ((c :: r).drop (w0 :: wr).length)) ||
          hasTokB (w0 :: wr) (isWordChar c) r)
      rw [hne, space_not_word c hc]
      simp
    · rw [List.dropWhile_cons_of_neg hc]

/-! Token lemmas for the substitution scanners. -/

/-- With the no-boundary flag set, the st scanner copies the head. -/
theorem subSt_true_cons (c : Char) (r : Str) : ∃ t, subSt true (c :: r) = c :: t := by
  unfold subSt
  split
  · rename_i heq
    exact absurd heq (by simp)
  · rename_i rest heq
    rw [if_pos rfl]
    rw [List.cons.injEq] at heq
    exact ⟨_, by rw [heq.1]⟩
  · rename_i c2 rest heq
    rw [List.cons.injEq] at heq
    exact ⟨_, by rw [heq.1]⟩

/-- With the no-boundary flag set, the cum scanner copies the head. -/
theorem subCum_true_cons (c : Char) (r : Str) : ∃ t, subCum true (c :: r) = c :: t := by
  unfold subCum
  split
  · rename_i heq
    exact absurd heq (by simp)
  · rename_i rest heq
    rw [if_neg (by simp)]
    rw [List.cons.injEq] at heq
    exact ⟨_, by rw [heq.1]⟩
  · rename_i c2 rest heq
    rw [List.cons.injEq] at heq
    exact ⟨_, by rw [heq.1]⟩

/-- Scanning the inserted saint for st finds nothing inside it and
leaves the flag set. -/
theorem hasTokB_saint_append (b : Bool) (x : Str) :
    hasTokB ['s', 't'] b (saintL ++ x) = hasTokB ['s', 't'] true x := by
  simp [hasTokB, startsWithL, saintL, isWordChar, isUpperCode]

/-- Scanning the inserted blank-with-blank for st finds nothing inside
it and clears the flag. -/
theorem hasTokB_with_append_st (b : Bool) (x : Str) :
    hasTokB ['s', 't'] b (withReplacement ++ x) = hasTokB ['s', 't'] false x := by
  simp [hasTokB, startsWithL, withReplacement, isWordChar, isUpperCode, isSpaceChar]

/-- Scanning the inserted blank-with-blank for cum finds nothing inside
it and clears the flag. -/
theorem hasTokB_with_append_cum (b : Bool) (x : Str) :
    hasTokB ['c', 'u', 'm'] b (withReplacement ++ x) =
      hasTokB ['c', 'u', 'm'] false x := by
  simp [hasTokB, startsWithL, withReplacement, isWordChar, isUpperCode, isSpaceChar]

/-- Scanning the inserted blank-and-blank for st finds nothing inside
it and clears the flag. -/
theorem hasTokB_and_append_st (b : Bool) (x : Str) :
    hasTokB ['s', 't'] b (andReplacement ++ x) = hasTokB ['s', 't'] false x := by
  simp [hasTokB, startsWithL, andReplacement, isWordChar, isUpperCode, isSpaceChar]

/-- Reduction of the st scanner at a boundary-relevant st. -/
theorem subSt_st_red (prevW : Bool) (rest : Str) :
    subSt prevW ('s' :: 't' :: rest) =
      if prevW then 's' :: subSt true ('t' :: rest)
      else
        if 0 < countDots rest then
          if wordAfterDots rest then
            saintL ++ subSt false (rest.drop (countDots rest))
          else saintL ++ subSt true rest
        else
          if nonWordHead rest then saintL ++ subSt true rest
          else 's' :: subSt true ('t' :: rest) := by
  rw [subSt.eq_def]
  split
  · rename_i heq
    exact absurd heq (by simp)
  · rename_i rest2 heq
    rw [List.cons.injEq, List.cons.injEq] at heq
    rw [heq.2.2]
  · rename_i c3 r3 hcon3 heq3
    rw [List.cons.injEq] at heq3
    exact (hcon3 rest heq3.1.symm heq3.2.symm).elim

/-- The st scanner maps the empty string to itself. -/
theorem subSt_nil (b : Bool) : subSt b [] = [] := by
  rw [subSt.eq_def]

/-- Reduction of the st scanner at a position that starts no match. -/
theorem subSt_cons_red (b : Bool) (c : Char) (rest : Str)
    (hcon : ∀ r2 : Str, c = 's' → rest = 't' :: r2 → False) :
    subSt b (c :: rest) = c :: subSt (isWordChar c) rest := by
  rw [subSt.eq_def]
  split
  · rename_i heq
    exact absurd heq (by simp)
  · rename_i rest2 heq
    rw [List.cons.injEq] at heq
    exact (hcon rest2 heq.1 heq.2).elim
  · rename_i c3 r3 hcon3 heq3
    rw [List.cons.injEq] at heq3
    rw [heq3.1, heq3.2]

/-- Reduction of the cum scanner at a candidate cum. -/
theorem subCum_cum_red (prevW : Bool) (rest : Str) :
    subCum prevW ('c' :: 'u' :: 'm' :: rest) =
      if !prevW && nonWordHead rest then withReplacement ++ subCum true rest
      else 'c' :: subCum true ('u' :: 'm' :: rest) := by
  rw [subCum.eq_def]
  split
  · rename_i heq
    exact absurd heq (by simp)
  · rename_i rest2 heq
    rw [List.cons.injEq, List.cons.injEq, List.cons.injEq] at heq
    rw [heq.2.2.2]
  · rename_i c3 r3 hcon3 heq3
    rw [List.cons.injEq] at heq3
    exact (hcon3 rest heq3.1.symm heq3.2.symm).elim

/-- The cum scanner maps the empty string to itself. -/
theorem subCum_nil (b : Bool) : subCum b [] = [] := by
  rw [subCum.eq_def]

/-- Reduction of the cum scanner at a position that starts no match. -/
theorem subCum_cons_red (b : Bool) (c : Char) (rest : Str)
    (hcon : ∀ r2 : Str, c = 'c' → rest = 'u' :: 'm' :: r2 → False) :
    subCum b (c :: rest) = c :: subCum (isWordChar c) rest := by
  rw [subCum.eq_def]
  split
  · rename_i heq
    exact absurd heq (by simp)
  · rename_i rest2 heq
    rw [List.cons.injEq] at heq
    exact (hcon rest2 heq.1 heq.2).elim
  · rename_i c3 r3 hcon3 heq3
    rw [List.cons.injEq] at heq3
    rw [heq3.1, heq3.2]

/-- The saint-rewriting pass leaves no word-bounded st occurrence in its
output. -/
theorem subSt_noTok : ∀ (b : Bool) (s : Str),
    hasTokB ['s', 't'] b (subSt b s) = false := by
  intro b s
  induction b, s using subSt.induct with
  | case1 b =>
    rw [subSt_nil]
    rfl
  | case2 rest ih =>
    rw [subSt_st_red, if_pos rfl]
    show ((!true && startsWithL ['s', 't'] ('s' :: subSt true ('t' :: rest)) &&
        nonWordHead (('s' :: subSt true ('t' :: rest)).drop 2)) ||
        hasTokB ['s', 't'] (isWordChar 's') (subSt true ('t' :: rest))) = false
    rw [show isWordChar 's' = true from rfl, ih]
    simp
  | case3 prevW rest hb hd hw ih =>
    have hb2 : prevW = false := by revert hb; cases prevW <;> simp
    subst hb2
    rw [subSt_st_red, if_neg (by simp), if_pos hd, if_pos hw, hasTokB_saint_append]
    exact hasTokB_mono_false _ _ ih
  | case4 prevW rest hb hd hw ih =>
    have hb2 : prevW = false := by revert hb; cases prevW <;> simp
    subst hb2
    rw [subSt_st_red, if_neg (by simp), if_pos hd, if_neg hw, hasTokB_saint_append]
    exact ih
  | case5 prevW rest hb hd hw ih =>
    have hb2 : prevW = false := by revert hb; cases prevW <;> simp
    subst hb2
    rw [subSt_st_red, if_neg (by simp), if_neg hd, if_pos hw, hasTokB_saint_append]
    exact ih
  | case6 prevW rest hb hd hw ih =>
    have hb2 : prevW = false := by revert hb; cases prevW <;> simp
    subst hb2
    rw [subSt_st_red, if_neg (by simp), if_neg hd, if_neg hw]
    have hword : ∃ r0 r2, rest = r0 :: r2 ∧ isWordChar r0 = true := by
      cases rest with
      | nil => exact absurd rfl hw
      | cons r0 r2 =>
        refine ⟨r0, r2, rfl, ?_⟩
        cases hww : isWordChar r0
        · exfalso
          apply hw
          show (!isWordChar r0) = true
          rw [hww]
          rfl
        · rfl
    obtain ⟨r0, r2, hrest, hr0⟩ := hword
    subst hrest
    have hredB : subSt true ('t' :: r0 :: r2) = 't' :: subSt true (r0 :: r2) := by
      rw [subSt_cons_red true 't' (r0 :: r2) (fun _ hh _ => absurd hh (by decide)),
        show isWordChar 't' = true from rfl]
    obtain ⟨t3, ht3⟩ := subSt_true_cons r0 r2
    rw [hredB, ht3] at ih ⊢
    show ((!false && startsWithL ['s', 't'] ('s' :: 't' :: r0 :: t3) &&
        nonWordHead (r0 :: t3)) ||
        hasTokB ['s', 't'] (isWordChar 's') ('t' :: r0 :: t3)) = false
    rw [show isWordChar 's' = true from rfl, ih,
      show nonWordHead (r0 :: t3) = !isWordChar r0 from rfl, hr0]
    simp
  | case7 b2 c rest hcon ih =>
    rw [subSt_cons_red b2 c rest hcon]
    show ((!b2 && startsWithL ['s', 't'] (c :: subSt (isWordChar c) rest) &&
        nonWordHead ((c :: subSt (isWordChar c) rest).drop 2)) ||
        hasTokB ['s', 't'] (isWordChar c) (subSt (isWordChar c) rest)) = false
    rw [ih]
    have hmatch : (startsWithL ['s', 't'] (c :: subSt (isWordChar c) rest)) = false ∨
        b2 = true := by
      by_cases hc : c = 's'
      · subst hc
        cases rest with
        | nil =>
          left
          rw [subSt_nil]
          rfl
        | cons r0 r2 =>
          left
          rw [show isWordChar 's' = true from rfl]
          obtain ⟨t3, ht3⟩ := subSt_true_cons r0 r2
          rw [ht3]
          show (decide ('s' = 's') && (decide ('t' = r0) && startsWithL [] t3)) = false
          have hr0 : (decide ('t' = r0)) = false := by
            refine decide_eq_false (fun hh => ?_)
            exact hcon r2 rfl (hh ▸ rfl)
          rw [hr0]
          simp
      · left
        show (decide ('s' = c) && startsWithL ['t'] (subSt (isWordChar c) rest)) = false
        rw [decide_eq_false (fun hh => hc hh.symm)]
        simp
    rcases hmatch with hmatch | hmatch
    · rw [hmatch]
      simp
    · rw [hmatch]
      simp

/-- One scanning step over a word character that cannot start a match
of the pattern. -/
theorem hasTokB_cons_nomatch (w0 : Char) (wr : Str) (c : Char)
    (hne : (decide (w0 = c)) = false) (hword : isWordChar c = true)
    (b : Bool) (x : Str) :
    hasTokB (w0 :: wr) b (c :: x) = hasTokB (w0 :: wr) true x := by
  show ((!b && (decide (w0 = c) && startsWithL wr x) &&
      nonWordHead ((c :: x).drop (w0 :: wr).length)) ||
      hasTokB (w0 :: wr) (isWordChar c) x) = _
  rw [hne, hword]
  simp

/-- One scanning step over a non-word character that cannot start a
match of the pattern. -/
theorem hasTokB_cons_nomatch_nonword (w0 : Char) (wr : Str) (c : Char)
    (hne : (decide (w0 = c)) = false) (hword : isWordChar c = false)
    (b : Bool) (x : Str) :
    hasTokB (w0 :: wr) b (c :: x) = hasTokB (w0 :: wr) false x := by
  show ((!b && (decide (w0 = c) && startsWithL wr x) &&
      nonWordHead ((c :: x).drop (w0 :: wr).length)) ||
      hasTokB (w0 :: wr) (isWordChar c) x) = _
  rw [hne, hword]
  simp

/-- The cum scanner with the flag set preserves the boundary class of
the head. -/
theorem nonWordHead_subCum_true (z : Str) :
    nonWordHead (subCum true z) = nonWordHead z := by
  cases z with
  | nil => rw [subCum_nil]
  | cons c r =>
    obtain ⟨t, ht⟩ := subCum_true_cons c r
    rw [ht]
    rfl

/-- The st scanner with the flag set preserves the boundary class of
the head. -/
theorem nonWordHead_subSt_true (z : Str) :
    nonWordHead (subSt true z) = nonWordHead z := by
  cases z with
  | nil => rw [subSt_nil]
  | cons c r =>
    obtain ⟨t, ht⟩ := subSt_true_cons c r
    rw [ht]
    rfl

/-- The saint-to-saint substitution is the identity. -/
theorem subSaint_id : ∀ (b : Bool) (s : Str), subSaint b s = s := by
  intro b s
  induction b, s using subSaint.induct with
  | case1 b => rw [subSaint.eq_def]
  | case2 prevW rest hcond ih =>
    rw [subSaint.eq_def]
    split
    · rename_i heq
      exact absurd heq (by simp)
    · rename_i rest2 heq
      rw [List.cons.injEq, List.cons.injEq, List.cons.injEq, List.cons.injEq,
        List.cons.injEq] at heq
      have hr : rest = rest2 := heq.2.2.2.2.2
      subst hr
      rw [if_pos hcond, ih]
      rfl
    · rename_i c3 r3 hcon3 heq3
      rw [List.cons.injEq] at heq3
      exact (hcon3 rest heq3.1.symm heq3.2.symm).elim
  | case3 prevW rest hcond ih =>
    rw [subSaint.eq_def]
    split
    · rename_i heq
      exact absurd heq (by simp)
    · rename_i rest2 heq
      rw [List.cons.injEq, List.cons.injEq, List.cons.injEq, List.cons.injEq,
        List.cons.injEq] at heq
      have hr : rest = rest2 := heq.2.2.2.2.2
      subst hr
      rw [if_neg hcond, ih]
    · rename_i c3 r3 hcon3 heq3
      rw [List.cons.injEq] at heq3
      exact (hcon3 rest heq3.1.symm heq3.2.symm).elim
  | case4 b2 c rest hcon ih =>
    rw [subSaint.eq_def]
    split
    · rename_i heq
      exact absurd heq (by simp)
    · rename_i rest2 heq
      rw [List.cons.injEq] at heq
      exact (hcon rest2 heq.1 heq.2).elim
    · rename_i c3 r3 hcon3 heq3
      rw [List.cons.injEq] at heq3
      rw [← heq3.1, ← heq3.2, ih]

/-- Definitional unfolding of the token scanner at a cons cell. -/
theorem hasTokB_cons (w : Str) (b : Bool) (c : Char) (x : Str) :
    hasTokB w b (c :: x) =
      ((!b && startsWithL w (c :: x) && nonWordHead ((c :: x).drop w.length))
        || hasTokB w (isWordChar c) x) := rfl

/-- The cum scanner with the flag set copies a leading um pair. -/
theorem subCum_um (rest : Str) :
    subCum true ('u' :: 'm' :: rest) = 'u' :: 'm' :: subCum true rest := by
  rw [subCum_cons_red true 'u' ('m' :: rest) (fun _ hh _ => absurd hh (by decide))]
  rw [show isWordChar 'u' = true from rfl]
  rw [subCum_cons_red true 'm' rest (fun _ hh _ => absurd hh (by decide))]
  rw [show isWordChar 'm' = true from rfl]

/-- The with-rewriting pass leaves no word-bounded cum occurrence in its
output. -/
theorem subCum_noTok : ∀ (b : Bool) (s : Str),
    hasTokB ['c', 'u', 'm'] b (subCum b s) = false := by
  intro b s
  induction b, s using subCum.induct with
  | case1 b =>
    rw [subCum_nil]
    rfl
  | case2 prevW rest hcond ih =>
    rw [subCum_cum_red, if_pos hcond, hasTokB_with_append_cum]
    have hnw2 : nonWordHead (subCum true rest) = true := by
      rw [nonWordHead_subCum_true]
      rw [Bool.and_eq_true] at hcond
      exact hcond.2
    rw [hasTokB_nonword_head 'c' ['u', 'm'] (by decide) _ hnw2]
    exact ih
  | case3 prevW rest hcond ih =>
    rw [subCum_cum_red, if_neg hcond, subCum_um]
    rw [subCum_um] at ih
    rw [hasTokB_cons]
    rw [show isWordChar 'c' = true from rfl, ih]
    rw [show startsWithL ['c', 'u', 'm'] ('c' :: 'u' :: 'm' :: subCum true rest) =
      true from by simp [startsWithL]]
    rw [show (('c' :: 'u' :: 'm' :: subCum true rest).drop
      (['c', 'u', 'm'] : Str).length) = subCum true rest from rfl]
    rw [nonWordHead_subCum_true]
    have hf : (!prevW && nonWordHead rest) = false := Bool.eq_false_iff.mpr hcond
    simp [hf]
  | case4 b c rest hcon ih =>
    rw [subCum_cons_red b c rest hcon, hasTokB_cons, ih]
    have hsw : startsWithL ['c', 'u', 'm'] (c :: subCum (isWordChar c) rest) =
        false := by
      by_cases hc : c = 'c'
      · subst hc
        show (decide ('c' = 'c') && startsWithL ['u', 'm']
          (subCum (isWordChar 'c') rest)) = false
        rw [show isWordChar 'c' = true from rfl]
        cases rest with
        | nil =>
          rw [subCum_nil]
          rfl
        | cons r0 r2 =>
          by_cases hu : r0 = 'u'
          · subst hu
            rw [subCum_cons_red true 'u' r2 (fun _ hh _ => absurd hh (by decide))]
            rw [show isWordChar 'u' = true from rfl]
            show (decide ('c' = 'c') && (decide ('u' = 'u') &&
              startsWithL ['m'] (subCum true r2))) = false
            cases r2 with
            | nil =>
              rw [subCum_nil]
              rfl
            | cons q0 q2 =>
              by_cases hm : q0 = 'm'
              · subst hm
                exact (hcon q2 rfl rfl).elim
              · obtain ⟨t, ht⟩ := subCum_true_cons q0 q2
                rw [ht]
                show (decide ('c' = 'c') && (decide ('u' = 'u') &&
                  (decide ('m' = q0) && true))) = false
                rw [decide_eq_false (show ¬('m' = q0) from fun he => hm he.symm)]
                simp
          · obtain ⟨t, ht⟩ := subCum_true_cons r0 r2
            rw [ht]
            show (decide ('c' = 'c') && (decide ('u' = r0) &&
              startsWithL ['m'] t)) = false
            rw [decide_eq_false (show ¬('u' = r0) from fun he => hu he.symm)]
            simp
      · show (decide ('c' = c) && _) = false
        rw [decide_eq_false (fun he => hc he.symm)]
        rfl
    rw [hsw]
    simp

/-- The with-rewriting pass neither creates nor destroys word-bounded st
occurrences. -/
theorem subCum_st_pres : ∀ (b : Bool) (s : Str),
    hasTokB ['s', 't'] b (subCum b s) = hasTokB ['s', 't'] b s := by
  intro b s
  induction b, s using subCum.induct with
  | case1 b =>
    rw [subCum_nil]
  | case2 prevW rest hcond ih =>
    rw [subCum_cum_red, if_pos hcond, hasTokB_with_append_st]
    rw [Bool.and_eq_true] at hcond
    have hb : prevW = false := by
      cases prevW
      · rfl
      · simp at hcond
    subst hb
    rw [hasTokB_nonword_head 's' ['t'] (by decide) _
      (by rw [nonWordHead_subCum_true]; exact hcond.2)]
    rw [ih]
    rw [hasTokB_cons_nomatch 's' ['t'] 'c' (by decide) (by decide)]
    rw [hasTokB_cons_nomatch 's' ['t'] 'u' (by decide) (by decide)]
    rw [hasTokB_cons_nomatch 's' ['t'] 'm' (by decide) (by decide)]
  | case3 prevW rest hcond ih =>
    rw [subCum_cum_red, if_neg hcond, subCum_um]
    rw [subCum_um] at ih
    rw [hasTokB_cons_nomatch 's' ['t'] 'c' (by decide) (by decide) prevW
      ('u' :: 'm' :: subCum true rest)]
    rw [hasTokB_cons_nomatch 's' ['t'] 'c' (by decide) (by decide) prevW
      ('u' :: 'm' :: rest)]
    exact ih
  | case4 b c rest hcon ih =>
    rw [subCum_cons_red b c rest hcon]
    show ((!b && startsWithL ['s', 't'] (c :: subCum (isWordChar c) rest) &&
        nonWordHead ((subCum (isWordChar c) rest).drop 1)) ||
        hasTokB ['s', 't'] (isWordChar c) (subCum (isWordChar c) rest)) =
      ((!b && startsWithL ['s', 't'] (c :: rest) &&
        nonWordHead (rest.drop 1)) ||
        hasTokB ['s', 't'] (isWordChar c) rest)
    rw [ih]
    by_cases hc : c = 's'
    · subst hc
      rw [show isWordChar 's' = true from rfl]
      cases rest with
      | nil =>
        rw [subCum_nil]
      | cons r0 r2 =>
        by_cases hr : r0 = 't'
        · subst hr
          rw [subCum_cons_red true 't' r2 (fun _ hh _ => absurd hh (by decide))]
          rw [show isWordChar 't' = true from rfl]
          rw [show startsWithL ['s', 't'] ('s' :: 't' :: subCum true r2) = true
            from by simp [startsWithL]]
          rw [show startsWithL ['s', 't'] ('s' :: 't' :: r2) = true
            from by simp [startsWithL]]
          rw [show ('t' :: subCum true r2).drop 1 = subCum true r2 from rfl]
          rw [show ('t' :: r2).drop 1 = r2 from rfl]
          rw [nonWordHead_subCum_true]
        · obtain ⟨t, ht⟩ := subCum_true_cons r0 r2
          rw [ht]
          rw [show startsWithL ['s', 't'] ('s' :: r0 :: t) =
            (decide ('t' = r0) && startsWithL [] t) from by simp [startsWithL]]
          rw [show startsWithL ['s', 't'] ('s' :: r0 :: r2) =
            (decide ('t' = r0) && startsWithL [] r2) from by simp [startsWithL]]
          rw [decide_eq_false (show ¬('t' = r0) from fun he => hr he.symm)]
          simp
    · rw [show startsWithL ['s', 't'] (c :: subCum (isWordChar c) rest) =
        (decide ('s' = c) && startsWithL ['t'] (subCum (isWordChar c) rest))
        from rfl]
      rw [show startsWithL ['s', 't'] (c :: rest) =
        (decide ('s' = c) && startsWithL ['t'] rest) from rfl]
      rw [decide_eq_false (show ¬('s' = c) from fun he => hc he.symm)]
      simp

/-- For a transformation that maps nil to nil, commutes with word-character
cons cells, and preserves the boundary class of the head, a starts-with test
for an all-word pattern is unchanged, and on success the remainder past the
pattern is the transform of the remainder. -/
theorem gen_startsWith (g : Str → Str) (hg0 : g [] = [])
    (hg1 : ∀ c r, isWordChar c = true → g (c :: r) = c :: g r)
    (hg2 : ∀ z, nonWordHead (g z) = nonWordHead z) :
    ∀ (w : Str), (∀ x ∈ w, isWordChar x = true) → ∀ (z : Str),
      startsWithL w (g z) = startsWithL w z ∧
      (startsWithL w z = true →
        (g z).drop w.length = g (z.drop w.length)) := by
  intro w
  induction w with
  | nil =>
    intro _ z
    exact ⟨rfl, fun _ => rfl⟩
  | cons w0 wr ihw =>
    intro hword z
    have hw0 : isWordChar w0 = true := hword w0 (List.mem_cons_self w0 wr)
    have hwr : ∀ x ∈ wr, isWordChar x = true :=
      fun x hx => hword x (List.mem_cons_of_mem w0 hx)
    cases z with
    | nil =>
      rw [hg0]
      exact ⟨rfl, fun h => by simp [startsWithL] at h⟩
    | cons c r =>
      cases hcw : isWordChar c with
      | true =>
        rw [hg1 c r hcw]
        constructor
        · show (decide (w0 = c) && startsWithL wr (g r)) =
            (decide (w0 = c) && startsWithL wr r)
          rw [(ihw hwr r).1]
        · intro h
          have h2 : startsWithL wr r = true := by
            have h3 : (decide (w0 = c) && startsWithL wr r) = true := h
            rw [Bool.and_eq_true] at h3
            exact h3.2
          show (g r).drop wr.length = g ((c :: r).drop (w0 :: wr).length)
          rw [(ihw hwr r).2 h2]
          rfl
      | false =>
        have hne : (decide (w0 = c)) = false :=
          decide_eq_false (fun he => by
            subst he
            rw [hw0] at hcw
            cases hcw)
        have hrhs : startsWithL (w0 :: wr) (c :: r) = false := by
          show (decide (w0 = c) && startsWithL wr r) = false
          rw [hne]
          rfl
        have hlhs : startsWithL (w0 :: wr) (g (c :: r)) = false := by
          have hnwg : nonWordHead (g (c :: r)) = true := by
            rw [hg2]
            show (!isWordChar c) = true
            rw [hcw]
            rfl
          cases hgz : g (c :: r) with
          | nil => rfl
          | cons d t =>
            rw [hgz] at hnwg
            have hdw : isWordChar d = false := by
              have hh : (!isWordChar d) = true := hnwg
              cases hv : isWordChar d
              · rfl
              · rw [hv] at hh
                cases hh
            have hned : (decide (w0 = d)) = false :=
              decide_eq_false (fun he => by
                subst he
                rw [hw0] at hdw
                cases hdw)
            show (decide (w0 = d) && startsWithL wr t) = false
            rw [hned]
            rfl
        rw [hlhs, hrhs]
        exact ⟨rfl, fun h => by cases h⟩

/-- Whitespace collapsing preserves the boundary class of the head. -/
theorem nonWordHead_collapseWs (z : Str) :
    nonWordHead (collapseWs z) = nonWordHead z := by
  cases z with
  | nil => rfl
  | cons c r =>
    by_cases hc : isSpaceChar c = true
    · rw [show collapseWs (c :: r) = ' ' :: (collapseWs r).dropWhile isSpaceChar
        from by simp only [collapseWs]; rw [if_pos hc]]
      show (!isWordChar ' ') = (!isWordChar c)
      rw [space_not_word c hc]
      decide
    · rw [show collapseWs (c :: r) = c :: collapseWs r
        from by simp only [collapseWs]; rw [if_neg hc]]
      rfl

/-- Whitespace collapsing leaves the token scan unchanged. -/
theorem collapse_tok_pres (w0 : Char) (wr : Str)
    (hword : ∀ x ∈ w0 :: wr, isWordChar x = true) :
    ∀ (s : Str) (b : Bool),
      hasTokB (w0 :: wr) b (collapseWs s) = hasTokB (w0 :: wr) b s := by
  have hw0 : isWordChar w0 = true := hword w0 (List.mem_cons_self w0 wr)
  have hgen := gen_startsWith collapseWs rfl
    (fun c r hcw => by
      simp only [collapseWs]
      rw [if_neg (show ¬(isSpaceChar c = true) from fun hs => by
        rw [word_not_space c hcw] at hs
        cases hs)])
    nonWordHead_collapseWs (w0 :: wr) hword
  intro s
  induction s with
  | nil =>
    intro b
    rfl
  | cons c r ih =>
    intro b
    by_cases hc : isSpaceChar c = true
    · rw [show collapseWs (c :: r) = ' ' :: (collapseWs r).dropWhile isSpaceChar
        from by simp only [collapseWs]; rw [if_pos hc]]
      rw [hasTokB_cons_nomatch_nonword w0 wr ' '
        (decide_eq_false (fun he => by
          rw [he] at hw0
          exact absurd hw0 (by decide)))
        (by decide) b ((collapseWs r).dropWhile isSpaceChar)]
      rw [hasTokB_dropWhile_spaces w0 wr hw0 (collapseWs r)]
      rw [ih false]
      rw [hasTokB_cons_nomatch_nonword w0 wr c
        (decide_eq_false (fun he => by
          rw [he] at hw0
          rw [space_not_word c hc] at hw0
          exact Bool.false_ne_true hw0))
        (space_not_word c hc) b r]
    · have hcol : collapseWs (c :: r) = c :: collapseWs r := by
        simp only [collapseWs]
        rw [if_neg hc]
      rw [hcol, hasTokB_cons (w0 :: wr) b c (collapseWs r),
        hasTokB_cons (w0 :: wr) b c r, ih (isWordChar c)]
      have h1 : startsWithL (w0 :: wr) (c :: collapseWs r) =
          startsWithL (w0 :: wr) (c :: r) := by
        have h := (hgen (c :: r)).1
        rw [hcol] at h
        exact h
      rw [h1]
      cases hs : startsWithL (w0 :: wr) (c :: r)
      · simp
      · have h2 := (hgen (c :: r)).2 hs
        rw [hcol] at h2
        rw [h2, nonWordHead_collapseWs]

/-- A character map that fixes word characters and preserves word-character
status preserves the boundary class of the head. -/
theorem nonWordHead_map (f : Char → Char)
    (hf2 : ∀ c, isWordChar (f c) = isWordChar c) (z : Str) :
    nonWordHead (z.map f) = nonWordHead z := by
  cases z with
  | nil => rfl
  | cons c r =>
    show (!isWordChar (f c)) = (!isWordChar c)
    rw [hf2 c]

/-- A character map that fixes word characters and preserves word-character
status leaves the token scan unchanged. -/
theorem map_tok_pres (f : Char → Char)
    (hf1 : ∀ c, isWordChar c = true → f c = c)
    (hf2 : ∀ c, isWordChar (f c) = isWordChar c)
    (w0 : Char) (wr : Str) (hword : ∀ x ∈ w0 :: wr, isWordChar x = true) :
    ∀ (s : Str) (b : Bool),
      hasTokB (w0 :: wr) b (s.map f) = hasTokB (w0 :: wr) b s := by
  have hgen := gen_startsWith (List.map f) rfl
    (fun c r hcw => by rw [List.map_cons, hf1 c hcw])
    (nonWordHead_map f hf2) (w0 :: wr) hword
  intro s
  induction s with
  | nil =>
    intro b
    rfl
  | cons c r ih =>
    intro b
    rw [List.map_cons, hasTokB_cons (w0 :: wr) b (f c) (r.map f),
      hasTokB_cons (w0 :: wr) b c r, hf2 c, ih (isWordChar c)]
    have h1 : startsWithL (w0 :: wr) (f c :: r.map f) =
        startsWithL (w0 :: wr) (c :: r) := (hgen (c :: r)).1
    rw [h1]
    cases hs : startsWithL (w0 :: wr) (c :: r)
    · simp
    · have h2 : (f c :: r.map f).drop (w0 :: wr).length =
          ((c :: r).drop (w0 :: wr).length).map f := (hgen (c :: r)).2 hs
      rw [h2, nonWordHead_map f hf2]

/-- The ampersand expansion preserves the boundary class of the head. -/
theorem nonWordHead_ampSub (z : Str) :
    nonWordHead (ampSub z) = nonWordHead z := by
  cases z with
  | nil => rfl
  | cons c r =>
    by_cases hc : c = '&'
    · subst hc
      rw [show ampSub ('&' :: r) = andReplacement ++ ampSub r from by
        unfold ampSub; rw [List.flatMap_cons, if_pos rfl]]
      show (!isWordChar ' ') = (!isWordChar '&')
      decide
    · rw [show ampSub (c :: r) = c :: ampSub r from by
        unfold ampSub; rw [List.flatMap_cons, if_neg hc]; rfl]
      rfl

/-- The ampersand expansion neither creates nor destroys word-bounded st
occurrences. -/
theorem ampSub_st_pres : ∀ (s : Str) (b : Bool),
    hasTokB ['s', 't'] b (ampSub s) = hasTokB ['s', 't'] b s := by
  have hgen := gen_startsWith ampSub rfl
    (fun c r hcw => by
      unfold ampSub
      rw [List.flatMap_cons, if_neg (fun he => by
        rw [he] at hcw
        exact absurd hcw (by decide))]
      rfl)
    nonWordHead_ampSub ['s', 't'] (by decide)
  intro s
  induction s with
  | nil =>
    intro b
    rfl
  | cons c r ih =>
    intro b
    by_cases hc : c = '&'
    · subst hc
      rw [show ampSub ('&' :: r) = andReplacement ++ ampSub r from by
        unfold ampSub; rw [List.flatMap_cons, if_pos rfl]]
      rw [hasTokB_and_append_st, ih false]
      rw [hasTokB_cons_nomatch_nonword 's' ['t'] '&' (by decide) (by decide) b r]
    · have hamp : ampSub (c :: r) = c :: ampSub r := by
        unfold ampSub
        rw [List.flatMap_cons, if_neg hc]
        rfl
      rw [hamp, hasTokB_cons ['s', 't'] b c (ampSub r),
        hasTokB_cons ['s', 't'] b c r, ih (isWordChar c)]
      have h1 : startsWithL ['s', 't'] (c :: ampSub r) =
          startsWithL ['s', 't'] (c :: r) := by
        have h := (hgen (c :: r)).1
        rw [hamp] at h
        exact h
      rw [h1]
      cases hs : startsWithL ['s', 't'] (c :: r)
      · simp
      · have h2 := (hgen (c :: r)).2 hs
        rw [hamp] at h2
        rw [h2, nonWordHead_ampSub]

/-- A string whose right trim is empty is all whitespace. -/
theorem trimR_nil_allspace : ∀ (z : Str), trimR z = [] →
    ∀ c ∈ z, isSpaceChar c = true := by
  intro z
  induction z with
  | nil =>
    intro _ c hc
    cases hc
  | cons c r ih =>
    intro h d hd
    by_cases hcond : isSpaceChar c ∧ trimR r = []
    · rcases List.mem_cons.mp hd with hd | hd
      · subst hd
        exact hcond.1
      · exact ih hcond.2 d hd
    · rw [show trimR (c :: r) = c :: trimR r from by
        simp only [trimR]; rw [if_neg hcond]] at h
      exact absurd h (by simp)

/-- Every string splits as its right trim followed by trailing
whitespace. -/
theorem trimR_decomp : ∀ (z : Str), ∃ t, z = trimR z ++ t ∧
    ∀ c ∈ t, isSpaceChar c = true := by
  intro z
  induction z with
  | nil => exact ⟨[], rfl, fun c hc => absurd hc (List.not_mem_nil c)⟩
  | cons c r ih =>
    obtain ⟨t, ht, hsp⟩ := ih
    by_cases hcond : isSpaceChar c ∧ trimR r = []
    · refine ⟨c :: r, ?_, ?_⟩
      · rw [show trimR (c :: r) = [] from by simp only [trimR]; rw [if_pos hcond]]
        rfl
      · intro d hd
        rcases List.mem_cons.mp hd with hd | hd
        · subst hd
          exact hcond.1
        · exact trimR_nil_allspace r hcond.2 d hd
    · refine ⟨t, ?_, hsp⟩
      rw [show trimR (c :: r) = c :: trimR r from by
        simp only [trimR]; rw [if_neg hcond]]
      rw [List.cons_append, ← ht]

/-- Right trimming leaves the token scan unchanged. -/
theorem hasTokB_trimR (w0 : Char) (wr : Str)
    (hword : ∀ x ∈ w0 :: wr, isWordChar x = true) (z : Str) (b : Bool) :
    hasTokB (w0 :: wr) b (trimR z) = hasTokB (w0 :: wr) b z := by
  obtain ⟨t, ht, hsp⟩ := trimR_decomp z
  conv_rhs => rw [ht]
  rw [hasTokB_append_spaces w0 wr hword t hsp (trimR z) b]

/-- A false disjunction has false parts. -/
theorem bor_eq_false_parts {a b : Bool} (h : (a || b) = false) :
    a = false ∧ b = false := by
  cases a <;> cases b <;> simp_all

/-- A positive leading-dot count exposes a leading dot. -/
theorem countDots_pos_head (rest : Str) (hd : 0 < countDots rest) :
    ∃ r2, rest = '.' :: r2 := by
  cases rest with
  | nil => simp [countDots] at hd
  | cons r0 r2 =>
    by_cases hr : r0 = '.'
    · exact ⟨r2, by rw [hr]⟩
    · exfalso
      rw [show countDots (r0 :: r2) = 0 from by
        unfold countDots
        rw [List.takeWhile_cons_of_neg (by simpa using hr)]
        rfl] at hd
      exact Nat.lt_irrefl 0 hd

/-- On a dot-free string with no word-bounded st occurrence, the saint
rewriting pass is the identity. -/
theorem subSt_id : ∀ (b : Bool) (s : Str), (∀ c ∈ s, ¬(c = '.')) →
    hasTokB ['s', 't'] b s = false → subSt b s = s := by
  intro b s
  induction b, s using subSt.induct with
  | case1 b =>
    intro _ _
    rw [subSt_nil]
  | case2 rest ih =>
    intro hnd h
    rw [subSt_st_red, if_pos rfl]
    rw [hasTokB_cons] at h
    have htail := (bor_eq_false_parts h).2
    rw [ih (fun c hc => hnd c (List.mem_cons_of_mem 's' hc)) htail]
  | case3 prevW rest hb hd hw ih =>
    intro hnd h
    exfalso
    obtain ⟨r2, hrest⟩ := countDots_pos_head rest hd
    subst hrest
    exact hnd '.' (List.mem_cons_of_mem 's' (List.mem_cons_of_mem 't'
      (List.mem_cons_self '.' r2))) rfl
  | case4 prevW rest hb hd hw ih =>
    intro hnd h
    exfalso
    obtain ⟨r2, hrest⟩ := countDots_pos_head rest hd
    subst hrest
    exact hnd '.' (List.mem_cons_of_mem 's' (List.mem_cons_of_mem 't'
      (List.mem_cons_self '.' r2))) rfl
  | case5 prevW rest hb hd hw ih =>
    intro hnd h
    exfalso
    have hb2 : prevW = false := by revert hb; cases prevW <;> simp
    subst hb2
    rw [hasTokB_cons] at h
    have h1 := (bor_eq_false_parts h).1
    rw [show startsWithL ['s', 't'] ('s' :: 't' :: rest) = true from by
      simp [startsWithL]] at h1
    rw [show (('s' :: 't' :: rest).drop (['s', 't'] : Str).length) = rest
      from rfl] at h1
    rw [hw] at h1
    simp at h1
  | case6 prevW rest hb hd hw ih =>
    intro hnd h
    have hb2 : prevW = false := by revert hb; cases prevW <;> simp
    subst hb2
    rw [subSt_st_red, if_neg (by simp), if_neg hd, if_neg hw]
    rw [hasTokB_cons] at h
    have htail := (bor_eq_false_parts h).2
    rw [ih (fun c hc => hnd c (List.mem_cons_of_mem 's' hc)) htail]
  | case7 b2 c rest hcon ih =>
    intro hnd h
    rw [subSt_cons_red b2 c rest hcon]
    rw [hasTokB_cons] at h
    have htail := (bor_eq_false_parts h).2
    rw [ih (fun d hd2 => hnd d (List.mem_cons_of_mem c hd2)) htail]

/-- On a string with no word-bounded cum occurrence, the with rewriting
pass is the identity. -/
theorem subCum_id : ∀ (b : Bool) (s : Str),
    hasTokB ['c', 'u', 'm'] b s = false → subCum b s = s := by
  intro b s
  induction b, s using subCum.induct with
  | case1 b =>
    intro _
    rw [subCum_nil]
  | case2 prevW rest hcond ih =>
    intro h
    exfalso
    rw [hasTokB_cons] at h
    have h1 := (bor_eq_false_parts h).1
    rw [Bool.and_eq_true] at hcond
    rw [hcond.1] at h1
    rw [show startsWithL ['c', 'u', 'm'] ('c' :: 'u' :: 'm' :: rest) = true
      from by simp [startsWithL]] at h1
    rw [show (('c' :: 'u' :: 'm' :: rest).drop (['c', 'u', 'm'] : Str).length)
      = rest from rfl] at h1
    rw [hcond.2] at h1
    simp at h1
  | case3 prevW rest hcond ih =>
    intro h
    rw [subCum_cum_red, if_neg hcond]
    rw [hasTokB_cons] at h
    have htail := (bor_eq_false_parts h).2
    rw [ih htail]
  | case4 b c rest hcon ih =>
    intro h
    rw [subCum_cons_red b c rest hcon]
    rw [hasTokB_cons] at h
    have htail := (bor_eq_false_parts h).2
    rw [ih htail]

/-- Characters of a mapped string satisfy any property the images
satisfy. -/
theorem map_pred (P : Char → Prop) (f : Char → Char) (s : Str)
    (h : ∀ c ∈ s, P (f c)) : ∀ c ∈ s.map f, P c := by
  intro c hc
  obtain ⟨d, hd, he⟩ := List.mem_map.mp hc
  subst he
  exact h d hd

/-- Characters of the accent-stripped string come from decompositions of
input characters. -/
theorem strip_accents_pred (P : Char → Prop) (s : Str)
    (h : ∀ d ∈ s, ∀ c ∈ nfd d, P c) : ∀ c ∈ strip_accents s, P c := by
  intro c hc
  unfold strip_accents at hc
  have hc2 := List.mem_of_mem_filter hc
  obtain ⟨d, hd, he⟩ := List.mem_flatMap.mp hc2
  exact h d hd c he

/-- Characters of a bracket-stripping pass come from the input, the
pending buffer, or the inserted blank. -/
theorem subBrA_pred (P : Char → Prop) (op cl : Char) (hP : P ' ') :
    ∀ (s : Str) (acc : Option Str),
      (∀ c ∈ s, P c) →
      (∀ buf, acc = some buf → ∀ c ∈ buf, P c) →
      ∀ c ∈ subBrA op cl acc s, P c := by
  intro s
  induction s with
  | nil =>
    intro acc hs hacc c hc
    cases acc with
    | none =>
      rw [show subBrA op cl none [] = [] from by simp only [subBrA]] at hc
      cases hc
    | some buf =>
      rw [show subBrA op cl (some buf) [] = buf.reverse from by
        simp only [subBrA]] at hc
      exact hacc buf rfl c (by simpa using hc)
  | cons d r ih =>
    intro acc hs hacc c hc
    cases acc with
    | none =>
      rw [show subBrA op cl none (d :: r) =
        (if d = op then subBrA op cl (some [d]) r
         else d :: subBrA op cl none r) from by simp only [subBrA]] at hc
      by_cases hd : d = op
      · rw [if_pos hd] at hc
        refine ih (some [d]) (fun x hx => hs x (List.mem_cons_of_mem d hx))
          (fun buf hbuf x hx => ?_) c hc
        rw [Option.some.injEq] at hbuf
        subst hbuf
        rcases List.mem_cons.mp hx with hx | hx
        · subst hx
          exact hs _ (List.mem_cons_self _ r)
        · cases hx
      · rw [if_neg hd] at hc
        rcases List.mem_cons.mp hc with hc | hc
        · subst hc
          exact hs _ (List.mem_cons_self _ r)
        · exact ih none (fun x hx => hs x (List.mem_cons_of_mem d hx))
            (fun buf hbuf => by cases hbuf) c hc
    | some buf =>
      rw [show subBrA op cl (some buf) (d :: r) =
        (if d = cl then ' ' :: subBrA op cl none r
         else subBrA op cl (some (d :: buf)) r) from by
        simp only [subBrA]] at hc
      by_cases hd : d = cl
      · rw [if_pos hd] at hc
        rcases List.mem_cons.mp hc with hc | hc
        · subst hc
          exact hP
        · exact ih none (fun x hx => hs x (List.mem_cons_of_mem d hx))
            (fun b2 hb2 => by cases hb2) c hc
      · rw [if_neg hd] at hc
        refine ih (some (d :: buf))
          (fun x hx => hs x (List.mem_cons_of_mem d hx))
          (fun b2 hb2 x hx => ?_) c hc
        rw [Option.some.injEq] at hb2
        subst hb2
        rcases List.mem_cons.mp hx with hx | hx
        · subst hx
          exact hs _ (List.mem_cons_self _ r)
        · exact hacc buf rfl x hx

/-- Characters of the saint-rewriting output come from the input or the
inserted word saint. -/
theorem subSt_pred (P : Char → Prop) (hsaint : ∀ c ∈ saintL, P c) :
    ∀ (b : Bool) (s : Str), (∀ c ∈ s, P c) → ∀ c ∈ subSt b s, P c := by
  intro b s
  induction b, s using subSt.induct with
  | case1 b =>
    intro _ c hc
    rw [subSt_nil] at hc
    cases hc
  | case2 rest ih =>
    intro hs c hc
    rw [subSt_st_red, if_pos rfl] at hc
    rcases List.mem_cons.mp hc with hc | hc
    · subst hc
      exact hs 's' (List.mem_cons_self 's' ('t' :: rest))
    · exact ih (fun x hx => hs x (List.mem_cons_of_mem 's' hx)) c hc
  | case3 prevW rest hb hd hw ih =>
    intro hs c hc
    have hb2 : prevW = false := by revert hb; cases prevW <;> simp
    subst hb2
    rw [subSt_st_red, if_neg (by simp), if_pos hd, if_pos hw] at hc
    rcases List.mem_append.mp hc with hc | hc
    · exact hsaint c hc
    · exact ih (fun x hx => hs x (List.mem_cons_of_mem 's'
        (List.mem_cons_of_mem 't' (List.drop_subset (countDots rest) rest hx))))
        c hc
  | case4 prevW rest hb hd hw ih =>
    intro hs c hc
    have hb2 : prevW = false := by revert hb; cases prevW <;> simp
    subst hb2
    rw [subSt_st_red, if_neg (by simp), if_pos hd, if_neg hw] at hc
    rcases List.mem_append.mp hc with hc | hc
    · exact hsaint c hc
    · exact ih (fun x hx => hs x (List.mem_cons_of_mem 's'
        (List.mem_cons_of_mem 't' hx))) c hc
  | case5 prevW rest hb hd hw ih =>
    intro hs c hc
    have hb2 : prevW = false := by revert hb; cases prevW <;> simp
    subst hb2
    rw [subSt_st_red, if_neg (by simp), if_neg hd, if_pos hw] at hc
    rcases List.mem_append.mp hc with hc | hc
    · exact hsaint c hc
    · exact ih (fun x hx => hs x (List.mem_cons_of_mem 's'
        (List.mem_cons_of_mem 't' hx))) c hc
  | case6 prevW rest hb hd hw ih =>
    intro hs c hc
    have hb2 : prevW = false := by revert hb; cases prevW <;> simp
    subst hb2
    rw [subSt_st_red, if_neg (by simp), if_neg hd, if_neg hw] at hc
    rcases List.mem_cons.mp hc with hc | hc
    · subst hc
      exact hs 's' (List.mem_cons_self 's' ('t' :: rest))
    · exact ih (fun x hx => hs x (List.mem_cons_of_mem 's' hx)) c hc
  | case7 b2 c2 rest hcon ih =>
    intro hs c hc
    rw [subSt_cons_red b2 c2 rest hcon] at hc
    rcases List.mem_cons.mp hc with hc | hc
    · subst hc
      exact hs _ (List.mem_cons_self _ rest)
    · exact ih (fun x hx => hs x (List.mem_cons_of_mem c2 hx)) c hc

/-- Characters of the with-rewriting output come from the input or the
inserted blank-with-blank. -/
theorem subCum_pred (P : Char → Prop) (hwith : ∀ c ∈ withReplacement, P c) :
    ∀ (b : Bool) (s : Str), (∀ c ∈ s, P c) → ∀ c ∈ subCum b s, P c := by
  intro b s
  induction b, s using subCum.induct with
  | case1 b =>
    intro _ c hc
    rw [subCum_nil] at hc
    cases hc
  | case2 prevW rest hcond ih =>
    intro hs c hc
    rw [subCum_cum_red, if_pos hcond] at hc
    rcases List.mem_append.mp hc with hc | hc
    · exact hwith c hc
    · exact ih (fun x hx => hs x (List.mem_cons_of_mem 'c'
        (List.mem_cons_of_mem 'u' (List.mem_cons_of_mem 'm' hx)))) c hc
  | case3 prevW rest hcond ih =>
    intro hs c hc
    rw [subCum_cum_red, if_neg hcond] at hc
    rcases List.mem_cons.mp hc with hc | hc
    · subst hc
      exact hs 'c' (List.mem_cons_self 'c' ('u' :: 'm' :: rest))
    · exact ih (fun x hx => hs x (List.mem_cons_of_mem 'c' hx)) c hc
  | case4 b c2 rest hcon ih =>
    intro hs c hc
    rw [subCum_cons_red b c2 rest hcon] at hc
    rcases List.mem_cons.mp hc with hc | hc
    · subst hc
      exact hs _ (List.mem_cons_self _ rest)
    · exact ih (fun x hx => hs x (List.mem_cons_of_mem c2 hx)) c hc

/-- Characters of the ampersand expansion come from the input or the
inserted blank-and-blank. -/
theorem ampSub_pred (P : Char → Prop) (hand : ∀ c ∈ andReplacement, P c) :
    ∀ (s : Str), (∀ c ∈ s, P c) → ∀ c ∈ ampSub s, P c := by
  intro s
  induction s with
  | nil =>
    intro _ c hc
    cases hc
  | cons d r ih =>
    intro hs c hc
    by_cases hd : d = '&'
    · rw [show ampSub (d :: r) = andReplacement ++ ampSub r from by
        unfold ampSub; rw [List.flatMap_cons, if_pos hd]] at hc
      rcases List.mem_append.mp hc with hc | hc
      · exact hand c hc
      · exact ih (fun x hx => hs x (List.mem_cons_of_mem d hx)) c hc
    · rw [show ampSub (d :: r) = d :: ampSub r from by
        unfold ampSub; rw [List.flatMap_cons, if_neg hd]; rfl] at hc
      rcases List.mem_cons.mp hc with hc | hc
      · subst hc
        exact hs _ (List.mem_cons_self _ r)
      · exact ih (fun x hx => hs x (List.mem_cons_of_mem d hx)) c hc

/-- Characters of the whitespace-collapsed string come from the input or
are the blank. -/
theorem collapseWs_pred (P : Char → Prop) (hP : P ' ') :
    ∀ (s : Str), (∀ c ∈ s, P c) → ∀ c ∈ collapseWs s, P c := by
  intro s
  induction s with
  | nil =>
    intro _ c hc
    cases hc
  | cons d r ih =>
    intro hs c hc
    by_cases hd : isSpaceChar d = true
    · rw [show collapseWs (d :: r) = ' ' :: (collapseWs r).dropWhile isSpaceChar
        from by simp only [collapseWs]; rw [if_pos hd]] at hc
      rcases List.mem_cons.mp hc with hc | hc
      · subst hc
        exact hP
      · exact ih (fun x hx => hs x (List.mem_cons_of_mem d hx)) c
          (List.dropWhile_subset isSpaceChar hc)
    · rw [show collapseWs (d :: r) = d :: collapseWs r
        from by simp only [collapseWs]; rw [if_neg hd]] at hc
      rcases List.mem_cons.mp hc with hc | hc
      · subst hc
        exact hs _ (List.mem_cons_self _ r)
      · exact ih (fun x hx => hs x (List.mem_cons_of_mem d hx)) c hc

/-- Characters of the left trim come from the input. -/
theorem trimL_pred (P : Char → Prop) (z : Str) (h : ∀ c ∈ z, P c) :
    ∀ c ∈ trimL z, P c := by
  intro c hc
  exact h c (List.dropWhile_subset isSpaceChar hc)

/-- Characters of the right trim come from the input. -/
theorem trimR_pred (P : Char → Prop) (z : Str) (h : ∀ c ∈ z, P c) :
    ∀ c ∈ trimR z, P c := by
  obtain ⟨t, ht, _⟩ := trimR_decomp z
  intro c hc
  refine h c ?_
  rw [ht]
  exact List.mem_append.mpr (Or.inl hc)

/-- The head surviving a dropWhile fails the predicate. -/
theorem dropWhile_head_false (p : Char → Bool) : ∀ (l : Str) (d : Char) (t : Str),
    l.dropWhile p = d :: t → p d = false := by
  intro l
  induction l with
  | nil =>
    intro d t h
    cases h
  | cons c r ih =>
    intro d t h
    by_cases hc : p c = true
    · rw [List.dropWhile_cons_of_pos hc] at h
      exact ih d t h
    · rw [List.dropWhile_cons_of_neg hc] at h
      rw [List.cons.injEq] at h
      rw [← h.1]
      exact Bool.eq_false_iff.mpr hc

/-- The tail of a doubled-blank-free string is doubled-blank-free. -/
theorem noDbl_tail (c : Char) (r : Str) (h : noDbl (c :: r) = true) :
    noDbl r = true := by
  cases r with
  | nil => rfl
  | cons d r2 =>
    rw [show noDbl (c :: d :: r2) =
      (!(isSpaceChar c && isSpaceChar d) && noDbl (d :: r2)) from by
      simp only [noDbl]] at h
    rw [Bool.and_eq_true] at h
    exact h.2

/-- Dropping a whitespace run keeps a string doubled-blank-free. -/
theorem noDbl_dropWhile (r : Str) (h : noDbl r = true) :
    noDbl (r.dropWhile isSpaceChar) = true := by
  induction r with
  | nil => rfl
  | cons c r2 ih =>
    by_cases hc : isSpaceChar c = true
    · rw [List.dropWhile_cons_of_pos hc]
      exact ih (noDbl_tail c r2 h)
    · rw [List.dropWhile_cons_of_neg hc]
      exact h

/-- A prefix of a doubled-blank-free string is doubled-blank-free. -/
theorem noDbl_append_left : ∀ (x y : Str), noDbl (x ++ y) = true →
    noDbl x = true := by
  intro x
  induction x with
  | nil =>
    intro y _
    rfl
  | cons c r ih =>
    intro y h
    cases r with
    | nil => rfl
    | cons d r2 =>
      rw [show noDbl (c :: d :: r2) =
        (!(isSpaceChar c && isSpaceChar d) && noDbl (d :: r2)) from by
        simp only [noDbl]]
      rw [show ((c :: d :: r2) ++ y) = c :: d :: (r2 ++ y) from rfl] at h
      rw [show noDbl (c :: d :: (r2 ++ y)) =
        (!(isSpaceChar c && isSpaceChar d) && noDbl (d :: (r2 ++ y))) from by
        simp only [noDbl]] at h
      rw [Bool.and_eq_true] at h
      have h3 : noDbl (d :: r2) = true := by
        apply ih y
        rw [show (d :: r2) ++ y = d :: (r2 ++ y) from rfl]
        exact h.2
      rw [h.1, h3]
      rfl

/-- The whitespace-collapsed string is doubled-blank-free. -/
theorem collapse_noDbl : ∀ (s : Str), noDbl (collapseWs s) = true := by
  intro s
  induction s with
  | nil => rfl
  | cons c r ih =>
    by_cases hc : isSpaceChar c = true
    · rw [show collapseWs (c :: r) = ' ' :: (collapseWs r).dropWhile isSpaceChar
        from by simp only [collapseWs]; rw [if_pos hc]]
      have hX : noDbl ((collapseWs r).dropWhile isSpaceChar) = true :=
        noDbl_dropWhile _ ih
      cases hXd : (collapseWs r).dropWhile isSpaceChar with
      | nil => rfl
      | cons d t =>
        rw [hXd] at hX
        rw [show noDbl (' ' :: d :: t) =
          (!(isSpaceChar ' ' && isSpaceChar d) && noDbl (d :: t)) from by
          simp only [noDbl]]
        rw [dropWhile_head_false isSpaceChar (collapseWs r) d t hXd, hX]
        decide
    · rw [show collapseWs (c :: r) = c :: collapseWs r
        from by simp only [collapseWs]; rw [if_neg hc]]
      cases hcr : collapseWs r with
      | nil => rfl
      | cons d t =>
        rw [hcr] at ih
        rw [show noDbl (c :: d :: t) =
          (!(isSpaceChar c && isSpaceChar d) && noDbl (d :: t)) from by
          simp only [noDbl]]
        rw [ih, Bool.eq_false_iff.mpr hc]
        rfl

/-- Every whitespace character of the collapsed string is the blank. -/
theorem collapse_space_blank : ∀ (s : Str), ∀ c ∈ collapseWs s,
    isSpaceChar c = true → c = ' ' := by
  intro s
  induction s with
  | nil =>
    intro c hc
    cases hc
  | cons d r ih =>
    intro c hc hsp
    by_cases hd : isSpaceChar d = true
    · rw [show collapseWs (d :: r) = ' ' :: (collapseWs r).dropWhile isSpaceChar
        from by simp only [collapseWs]; rw [if_pos hd]] at hc
      rcases List.mem_cons.mp hc with hc | hc
      · exact hc
      · exact ih c (List.dropWhile_subset isSpaceChar hc) hsp
    · rw [show collapseWs (d :: r) = d :: collapseWs r
        from by simp only [collapseWs]; rw [if_neg hd]] at hc
      rcases List.mem_cons.mp hc with hc | hc
      · subst hc
        exact absurd hsp hd
      · exact ih c hc hsp

/-- The left trim starts with a non-whitespace character. -/
theorem headNotSp_trimL (z : Str) : headNotSp (trimL z) = true := by
  unfold trimL
  induction z with
  | nil => rfl
  | cons c r ih =>
    by_cases hc : isSpaceChar c = true
    · rw [List.dropWhile_cons_of_pos hc]
      exact ih
    · rw [List.dropWhile_cons_of_neg hc]
      show (!isSpaceChar c) = true
      rw [Bool.eq_false_iff.mpr hc]
      rfl

/-- The right trim ends with a non-whitespace character. -/
theorem lastNotSp_trimR : ∀ (z : Str), lastNotSp (trimR z) = true := by
  intro z
  induction z with
  | nil => rfl
  | cons c r ih =>
    by_cases hcond : isSpaceChar c = true ∧ trimR r = []
    · rw [show trimR (c :: r) = [] from by
        simp only [trimR]; rw [if_pos hcond]]
      rfl
    · rw [show trimR (c :: r) = c :: trimR r from by
        simp only [trimR]; rw [if_neg hcond]]
      cases htr : trimR r with
      | nil =>
        have hc : ¬ isSpaceChar c = true := fun hsp => hcond ⟨hsp, htr⟩
        show (!isSpaceChar c) = true
        rw [Bool.eq_false_iff.mpr hc]
        rfl
      | cons d t =>
        rw [htr] at ih
        show lastNotSp (d :: t) = true
        exact ih

/-- Left trimming keeps the last character non-whitespace. -/
theorem lastNotSp_dropWhile (z : Str) (h : lastNotSp z = true) :
    lastNotSp (z.dropWhile isSpaceChar) = true := by
  induction z with
  | nil => rfl
  | cons c r ih =>
    by_cases hc : isSpaceChar c = true
    · rw [List.dropWhile_cons_of_pos hc]
      apply ih
      cases r with
      | nil => rfl
      | cons d t =>
        show lastNotSp (d :: t) = true
        exact h
    · rw [List.dropWhile_cons_of_neg hc]
      exact h

/-- Left trimming is the identity on a string with a non-whitespace
head. -/
theorem trimL_id (z : Str) (h : headNotSp z = true) : trimL z = z := by
  cases z with
  | nil => rfl
  | cons c r =>
    unfold trimL
    rw [List.dropWhile_cons_of_neg (fun hsp => by
      rw [show headNotSp (c :: r) = (!isSpaceChar c) from rfl, hsp] at h
      exact Bool.false_ne_true h)]

/-- Right trimming is the identity on a string with a non-whitespace
last character. -/
theorem trimR_id : ∀ (z : Str), lastNotSp z = true → trimR z = z := by
  intro z
  induction z with
  | nil =>
    intro _
    rfl
  | cons c r ih =>
    intro h
    cases r with
    | nil =>
      rw [show trimR [c] =
        (if isSpaceChar c ∧ trimR ([] : Str) = [] then []
         else c :: trimR ([] : Str)) from by simp only [trimR]]
      rw [if_neg (fun hcond => by
        rw [show lastNotSp [c] = (!isSpaceChar c) from rfl, hcond.1] at h
        exact Bool.false_ne_true h)]
      rfl
    | cons d t =>
      have htr : trimR (d :: t) = d :: t := ih (by
        show lastNotSp (d :: t) = true
        exact h)
      rw [show trimR (c :: d :: t) =
        (if isSpaceChar c ∧ trimR (d :: t) = [] then []
         else c :: trimR (d :: t)) from by simp only [trimR]]
      rw [if_neg (fun hcond => by
        have h2 := hcond.2
        rw [htr] at h2
        exact absurd h2 (by simp))]
      rw [htr]

/-- Stripping is the identity on a trimmed string. -/
theorem pyStrip_id (z : Str) (h1 : headNotSp z = true)
    (h2 : lastNotSp z = true) : pyStrip z = z := by
  unfold pyStrip
  rw [trimR_id z h2, trimL_id z h1]

/-- Mapping a function that fixes every character is the identity. -/
theorem mapIdOn (f : Char → Char) : ∀ (s : Str), (∀ c ∈ s, f c = c) →
    s.map f = s := by
  intro s
  induction s with
  | nil =>
    intro _
    rfl
  | cons c r ih =>
    intro h
    rw [List.map_cons, h c (List.mem_cons_self c r),
      ih (fun x hx => h x (List.mem_cons_of_mem c hx))]

/-- Accent stripping is the identity on atomic, non-mark characters. -/
theorem strip_accents_id : ∀ (s : Str),
    (∀ c ∈ s, nfd c = [c] ∧ isMn c = false) → strip_accents s = s := by
  intro s
  induction s with
  | nil =>
    intro _
    rfl
  | cons c r ih =>
    intro h
    have hc := h c (List.mem_cons_self c r)
    unfold strip_accents at ih ⊢
    rw [List.flatMap_cons, hc.1]
    rw [show (([c] : Str) ++ r.flatMap nfd) = c :: r.flatMap nfd from rfl]
    rw [List.filter_cons]
    rw [hc.2]
    rw [if_pos (show (!false) = true from rfl)]
    rw [ih (fun x hx => h x (List.mem_cons_of_mem c hx))]

/-- A bracket-stripping pass is the identity when the opening bracket is
absent. -/
theorem subBrA_none_id (op cl : Char) : ∀ (s : Str), (∀ c ∈ s, ¬(c = op)) →
    subBrA op cl none s = s := by
  intro s
  induction s with
  | nil =>
    intro _
    rw [show subBrA op cl none [] = [] from by simp only [subBrA]]
  | cons c r ih =>
    intro h
    rw [show subBrA op cl none (c :: r) =
      (if c = op then subBrA op cl (some [c]) r
       else c :: subBrA op cl none r) from by simp only [subBrA]]
    rw [if_neg (h c (List.mem_cons_self c r))]
    rw [ih (fun x hx => h x (List.mem_cons_of_mem c hx))]

/-- Bracket stripping is the identity when no opening bracket occurs. -/
theorem strip_brackets_id (s : Str) (h1 : ∀ c ∈ s, ¬(c = '['))
    (h2 : ∀ c ∈ s, ¬(c = '(')) : strip_brackets s = s := by
  unfold strip_brackets
  rw [subBrA_none_id '[' ']' s h1, subBrA_none_id '(' ')' s h2]

/-- The ampersand expansion is the identity when no ampersand occurs. -/
theorem ampSub_id : ∀ (s : Str), (∀ c ∈ s, ¬(c = '&')) → ampSub s = s := by
  intro s
  induction s with
  | nil =>
    intro _
    rfl
  | cons c r ih =>
    intro h
    rw [show ampSub (c :: r) = c :: ampSub r from by
      unfold ampSub
      rw [List.flatMap_cons, if_neg (h c (List.mem_cons_self c r))]
      rfl]
    rw [ih (fun x hx => h x (List.mem_cons_of_mem c hx))]

/-- Whitespace collapsing is the identity on a blank-normalized string
with no doubled blanks. -/
theorem collapse_id : ∀ (s : Str),
    (∀ c ∈ s, isSpaceChar c = true → c = ' ') → noDbl s = true →
    collapseWs s = s := by
  intro s
  induction s with
  | nil =>
    intro _ _
    rfl
  | cons c r ih =>
    intro hbl hnd
    by_cases hc : isSpaceChar c = true
    · have hcb : c = ' ' := hbl c (List.mem_cons_self c r) hc
      subst hcb
      rw [show collapseWs (' ' :: r) = ' ' :: (collapseWs r).dropWhile isSpaceChar
        from by simp only [collapseWs]; rw [if_pos hc]]
      rw [ih (fun x hx => hbl x (List.mem_cons_of_mem ' ' hx))
        (noDbl_tail ' ' r hnd)]
      cases r with
      | nil => rfl
      | cons d t =>
        have hd : isSpaceChar d = false := by
          rw [show noDbl (' ' :: d :: t) =
            (!(isSpaceChar ' ' && isSpaceChar d) && noDbl (d :: t)) from by
            simp only [noDbl]] at hnd
          rw [Bool.and_eq_true] at hnd
          have h1 := hnd.1
          rw [show isSpaceChar ' ' = true from by decide] at h1
          cases hv : isSpaceChar d
          · rfl
          · rw [hv] at h1
            exact absurd h1 (by decide)
        rw [List.dropWhile_cons_of_neg (by
          rw [hd]
          exact fun hh => Bool.false_ne_true hh)]
    · rw [show collapseWs (c :: r) = c :: collapseWs r
        from by simp only [collapseWs]; rw [if_neg hc]]
      rw [ih (fun x hx => hbl x (List.mem_cons_of_mem c hx))
        (noDbl_tail c r hnd)]

/-- Characters with small code points differ from characters with large
ones. -/
theorem toNat_le_ne (c x : Char) (hc : c.toNat ≤ 122) (hx : 193 ≤ x.toNat) :
    c ≠ x := by
  intro he
  subst he
  omega

/-- Lowercasing outputs neither ASCII uppercase letters nor the uppercase
circumflexed vowels. -/
theorem pyLower_lowerSafe (c : Char) : lowerSafe (pyLower c) := by
  unfold pyLower lowerSafe
  split_ifs with h1 h2 h3 h4 h5 h6 h7 h8
  · decide
  · decide
  · decide
  · decide
  · decide
  · decide
  · decide
  · have hle : (Char.ofNatAux (c.toNat + 32) (Or.inl (by omega))).toNat ≤ 122 := by
      rw [show (Char.ofNatAux (c.toNat + 32) (Or.inl (by omega))).toNat =
        c.toNat + 32 from rfl]
      omega
    refine ⟨?_, ?_, ?_, ?_, ?_, ?_, ?_, ?_⟩
    · unfold isUpperCode
      rw [show (Char.ofNatAux (c.toNat + 32) (Or.inl (by omega))).toNat =
        c.toNat + 32 from rfl]
      simp only [decide_eq_false_iff_not]
      omega
    · exact toNat_le_ne _ 'Ô' hle (by decide)
    · exact toNat_le_ne _ 'Â' hle (by decide)
    · exact toNat_le_ne _ 'Ê' hle (by decide)
    · exact toNat_le_ne _ 'Î' hle (by decide)
    · exact toNat_le_ne _ 'Û' hle (by decide)
    · exact toNat_le_ne _ 'Ŵ' hle (by decide)
    · exact toNat_le_ne _ 'Ŷ' hle (by decide)
  · exact ⟨decide_eq_false h8, h1, h2, h3, h4, h5, h6, h7⟩

/-- NFD decomposition of a lowercase-safe character yields no ASCII
uppercase letter. -/
theorem nfd_not_upper (d : Char) (hd : lowerSafe d) :
    ∀ c ∈ nfd d, isUpperCode c = false := by
  intro c hc
  obtain ⟨hu, hO, hA, hE, hI, hU, hW, hY⟩ := hd
  unfold nfd at hc
  by_cases g1 : d = 'ô'
  · rw [if_pos g1] at hc
    rcases List.mem_cons.mp hc with hc | hc
    · subst hc
      decide
    · rcases List.mem_cons.mp hc with hc | hc
      · subst hc
        decide
      · cases hc
  · rw [if_neg g1] at hc
    by_cases g2 : d = 'â'
    · rw [if_pos g2] at hc
      rcases List.mem_cons.mp hc with hc | hc
      · subst hc
        decide
      · rcases List.mem_cons.mp hc with hc | hc
        · subst hc
          decide
        · cases hc
    · rw [if_neg g2] at hc
      by_cases g3 : d = 'ê'
      · rw [if_pos g3] at hc
        rcases List.mem_cons.mp hc with hc | hc
        · subst hc
          decide
        · rcases List.mem_cons.mp hc with hc | hc
          · subst hc
            decide
          · cases hc
      · rw [if_neg g3] at hc
        by_cases g4 : d = 'î'
        · rw [if_pos g4] at hc
          rcases List.mem_cons.mp hc with hc | hc
          · subst hc
            decide
          · rcases List.mem_cons.mp hc with hc | hc
            · subst hc
              decide
            · cases hc
        · rw [if_neg g4] at hc
          by_cases g5 : d = 'û'
          · rw [if_pos g5] at hc
            rcases List.mem_cons.mp hc with hc | hc
            · subst hc
              decide
            · rcases List.mem_cons.mp hc with hc | hc
              · subst hc
                decide
              · cases hc
          · rw [if_neg g5] at hc
            by_cases g6 : d = 'ŵ'
            · rw [if_pos g6] at hc
              rcases List.mem_cons.mp hc with hc | hc
              · subst hc
                decide
              · rcases List.mem_cons.mp hc with hc | hc
                · subst hc
                  decide
                · cases hc
            · rw [if_neg g6] at hc
              by_cases g7 : d = 'ŷ'
              · rw [if_pos g7] at hc
                rcases List.mem_cons.mp hc with hc | hc
                · subst hc
                  decide
                · rcases List.mem_cons.mp hc with hc | hc
                  · subst hc
                    decide
                  · cases hc
              · rw [if_neg g7] at hc
                by_cases g8 : d = 'Ô'
                · exact absurd g8 hO
                · rw [if_neg g8] at hc
                  by_cases g9 : d = 'Â'
                  · exact absurd g9 hA
                  · rw [if_neg g9] at hc
                    by_cases g10 : d = 'Ê'
                    · exact absurd g10 hE
                    · rw [if_neg g10] at hc
                      by_cases g11 : d = 'Î'
                      · exact absurd g11 hI
                      · rw [if_neg g11] at hc
                        by_cases g12 : d = 'Û'
                        · exact absurd g12 hU
                        · rw [if_neg g12] at hc
                          by_cases g13 : d = 'Ŵ'
                          · exact absurd g13 hW
                          · rw [if_neg g13] at hc
                            by_cases g14 : d = 'Ŷ'
                            · exact absurd g14 hY
                            · rw [if_neg g14] at hc
                              rcases List.mem_cons.mp hc with hc | hc
                              · subst hc
                                exact hu
                              · cases hc

/-- Characters of the stripped string come from the input. -/
theorem pyStrip_pred (P : Char → Prop) (z : Str) (h : ∀ c ∈ z, P c) :
    ∀ c ∈ pyStrip z, P c := by
  unfold pyStrip
  exact trimL_pred P _ (trimR_pred P _ h)

/-- Characters of the punctuation-stripped string come from the input or
are the blank. -/
theorem punctSub_pred (P : Char → Prop) (hP : P ' ') (kc : Bool) :
    ∀ (s : Str), (∀ c ∈ s, P c) → ∀ c ∈ punctSub kc s, P c := by
  intro s h
  unfold punctSub
  apply map_pred
  intro c hc
  by_cases hcc : (isWordChar c || isSpaceChar c || (kc && decide (c = ','))) = true
  · rw [if_pos hcc]
    exact h c hc
  · rw [if_neg hcc]
    exact hP

/-- Characters of the hyphen-and-slash substitution come from the input
or are the blank. -/
theorem hyphenSlashSub_pred (P : Char → Prop) (hP : P ' ') :
    ∀ (s : Str), (∀ c ∈ s, P c) → ∀ c ∈ hyphenSlashSub s, P c := by
  intro s h
  unfold hyphenSlashSub
  apply map_pred
  intro c hc
  by_cases hcc : c = '-' ∨ c = '/'
  · rw [if_pos hcc]
    exact hP
  · rw [if_neg hcc]
    exact h c hc

/-- The punctuation pass leaves the token scan unchanged. -/
theorem punct_tok_pres (kc : Bool) (w0 : Char) (wr : Str)
    (hword : ∀ x ∈ w0 :: wr, isWordChar x = true) (s : Str) (b : Bool) :
    hasTokB (w0 :: wr) b (punctSub kc s) = hasTokB (w0 :: wr) b s := by
  unfold punctSub
  apply map_tok_pres
  · intro c hcw
    rw [if_pos (by rw [hcw]; rfl)]
  · intro c
    by_cases hcc : (isWordChar c || isSpaceChar c || (kc && decide (c = ','))) = true
    · rw [if_pos hcc]
    · rw [if_neg hcc]
      have hcw : isWordChar c = false := by
        cases hv : isWordChar c
        · rfl
        · exact absurd (by rw [hv]; rfl) hcc
      rw [hcw]
      decide
  · exact hword

/-- The hyphen-and-slash pass leaves the token scan unchanged. -/
theorem hyphen_tok_pres (w0 : Char) (wr : Str)
    (hword : ∀ x ∈ w0 :: wr, isWordChar x = true) (s : Str) (b : Bool) :
    hasTokB (w0 :: wr) b (hyphenSlashSub s) = hasTokB (w0 :: wr) b s := by
  unfold hyphenSlashSub
  apply map_tok_pres
  · intro c hcw
    rw [if_neg (fun hcc => by
      rcases hcc with hcc | hcc <;> (rw [hcc] at hcw; exact absurd hcw (by decide)))]
  · intro c
    by_cases hcc : c = '-' ∨ c = '/'
    · rw [if_pos hcc]
      rcases hcc with hcc | hcc <;> (rw [hcc]; decide)
    · rw [if_neg hcc]
  · exact hword

/-- Identity of the hyphen-and-slash pass on inputs without those
characters. -/
theorem hyphenSlashSub_id (s : Str)
    (h : ∀ c ∈ s, ¬(c = '-') ∧ ¬(c = '/')) : hyphenSlashSub s = s := by
  unfold hyphenSlashSub
  apply mapIdOn
  intro c hc
  rw [if_neg (fun hcc => by
    rcases hcc with hcc | hcc
    · exact (h c hc).1 hcc
    · exact (h c hc).2 hcc)]

/-- Identity of the punctuation pass on inputs of kept characters. -/
theorem punctSub_id (kc : Bool) (s : Str)
    (h : ∀ c ∈ s, (isWordChar c || isSpaceChar c ||
      (kc && decide (c = ','))) = true) :
    punctSub kc s = s := by
  unfold punctSub
  apply mapIdOn
  intro c hc
  rw [if_pos (h c hc)]

/-- The right trim of a doubled-blank-free string is doubled-blank-free. -/
theorem noDbl_trimR (z : Str) (h : noDbl z = true) : noDbl (trimR z) = true := by
  obtain ⟨t, ht, _⟩ := trimR_decomp z
  apply noDbl_append_left _ t
  rw [← ht]
  exact h

/-- The normalization pipeline written without intermediate names. -/
theorem make_key_eq (kc : Bool) (s : Str) :
    make_key_improved kc s =
      pyStrip (collapseWs (punctSub kc (hyphenSlashSub (subCum false
        (ampSub (subSaint false (subSt false (strip_brackets
        (strip_accents (pyStrip (s.map pyLower))))))))))) := rfl

/-- The normalized key contains no ASCII uppercase letter. -/
theorem key_not_upper (kc : Bool) (s : Str) :
    ∀ c ∈ make_key_improved kc s, isUpperCode c = false := by
  have h1 : ∀ c ∈ s.map pyLower, lowerSafe c :=
    map_pred lowerSafe pyLower s (fun c _ => pyLower_lowerSafe c)
  have h2 := pyStrip_pred lowerSafe (s.map pyLower) h1
  have h3 := strip_accents_pred (fun c => isUpperCode c = false)
    (pyStrip (s.map pyLower)) (fun d hd => nfd_not_upper d (h2 d hd))
  have h4a := subBrA_pred (fun c => isUpperCode c = false) '[' ']' (by decide)
    (strip_accents (pyStrip (s.map pyLower))) none h3
    (fun buf hbuf => by cases hbuf)
  have h4 := subBrA_pred (fun c => isUpperCode c = false) '(' ')' (by decide)
    (subBrA '[' ']' none (strip_accents (pyStrip (s.map pyLower)))) none h4a
    (fun buf hbuf => by cases hbuf)
  have h5 := subSt_pred (fun c => isUpperCode c = false) (by decide) false _ h4
  have h5b : ∀ c ∈ subSaint false (subSt false (subBrA '(' ')' none
      (subBrA '[' ']' none (strip_accents (pyStrip (s.map pyLower)))))),
      isUpperCode c = false := by
    rw [subSaint_id]
    exact h5
  have h6 := ampSub_pred (fun c => isUpperCode c = false) (by decide) _ h5b
  have h7 := subCum_pred (fun c => isUpperCode c = false) (by decide) false _ h6
  have h8 := hyphenSlashSub_pred (fun c => isUpperCode c = false) (by decide) _ h7
  have h9 := punctSub_pred (fun c => isUpperCode c = false) (by decide) kc _ h8
  have h10 := collapseWs_pred (fun c => isUpperCode c = false) (by decide) _ h9
  have h11 := pyStrip_pred (fun c => isUpperCode c = false) _ h10
  rw [make_key_eq]
  exact h11

/-- Every character of the normalized key is kept by the punctuation
class. -/
theorem key_class (kc : Bool) (s : Str) : ∀ c ∈ make_key_improved kc s,
    (isWordChar c || isSpaceChar c || (kc && decide (c = ','))) = true := by
  rw [make_key_eq]
  apply pyStrip_pred
    (fun c => (isWordChar c || isSpaceChar c || (kc && decide (c = ','))) = true)
  apply collapseWs_pred
    (fun c => (isWordChar c || isSpaceChar c || (kc && decide (c = ','))) = true)
    (by rfl)
  unfold punctSub
  apply map_pred
    (fun c => (isWordChar c || isSpaceChar c || (kc && decide (c = ','))) = true)
  intro c _
  by_cases hcc : (isWordChar c || isSpaceChar c || (kc && decide (c = ','))) = true
  · rw [if_pos hcc]
    exact hcc
  · rw [if_neg hcc]
    rfl

/-- Every whitespace character of the normalized key is the blank. -/
theorem key_space_blank (kc : Bool) (s : Str) : ∀ c ∈ make_key_improved kc s,
    isSpaceChar c = true → c = ' ' := by
  rw [make_key_eq]
  intro c hc hsp
  have hc2 := pyStrip_pred
    (fun d => d ∈ collapseWs (punctSub kc (hyphenSlashSub (subCum false
      (ampSub (subSaint false (subSt false (strip_brackets
      (strip_accents (pyStrip (s.map pyLower)))))))))))
    _ (fun d hd => hd) c hc
  exact collapse_space_blank _ c hc2 hsp

/-- Every character of the normalized key is allowed: a lowercase word
character, a blank, or (in comma-keeping mode) a comma. -/
theorem key_allowed (kc : Bool) (s : Str) : ∀ c ∈ make_key_improved kc s,
    allowedChar kc c = true := by
  intro c hc
  have hcl := key_class kc s c hc
  have hup := key_not_upper kc s c hc
  have hbl := key_space_blank kc s c hc
  unfold allowedChar
  rw [Bool.or_eq_true, Bool.or_eq_true] at hcl
  rcases hcl with (hw | hsp) | hcm
  · rw [hw, hup]
    simp
  · have hc2 := hbl hsp
    subst hc2
    simp
  · rw [hcm]
    simp

/-- The normalized key starts with a non-whitespace character. -/
theorem key_headNotSp (kc : Bool) (s : Str) :
    headNotSp (make_key_improved kc s) = true := by
  rw [make_key_eq]
  exact headNotSp_trimL _

/-- The normalized key ends with a non-whitespace character. -/
theorem key_lastNotSp (kc : Bool) (s : Str) :
    lastNotSp (make_key_improved kc s) = true := by
  rw [make_key_eq]
  show lastNotSp (trimL (trimR (collapseWs _))) = true
  exact lastNotSp_dropWhile _ (lastNotSp_trimR _)

/-- The normalized key has no doubled whitespace. -/
theorem key_noDbl (kc : Bool) (s : Str) :
    noDbl (make_key_improved kc s) = true := by
  rw [make_key_eq]
  show noDbl (trimL (trimR (collapseWs _))) = true
  exact noDbl_dropWhile _ (noDbl_trimR _ (collapse_noDbl _))

/-- The normalized key contains no word-bounded st occurrence. -/
theorem key_noTok_st (kc : Bool) (s : Str) :
    hasTokB ['s', 't'] false (make_key_improved kc s) = false := by
  rw [make_key_eq]
  unfold pyStrip trimL
  rw [hasTokB_dropWhile_spaces 's' ['t'] (by decide)]
  rw [hasTokB_trimR 's' ['t'] (by decide)]
  rw [collapse_tok_pres 's' ['t'] (by decide)]
  rw [punct_tok_pres kc 's' ['t'] (by decide)]
  rw [hyphen_tok_pres 's' ['t'] (by decide)]
  rw [subCum_st_pres false]
  rw [ampSub_st_pres]
  rw [subSaint_id]
  exact subSt_noTok false _

/-- The normalized key contains no word-bounded cum occurrence. -/
theorem key_noTok_cum (kc : Bool) (s : Str) :
    hasTokB ['c', 'u', 'm'] false (make_key_improved kc s) = false := by
  rw [make_key_eq]
  unfold pyStrip trimL
  rw [hasTokB_dropWhile_spaces 'c' ['u', 'm'] (by decide)]
  rw [hasTokB_trimR 'c' ['u', 'm'] (by decide)]
  rw [collapse_tok_pres 'c' ['u', 'm'] (by decide)]
  rw [punct_tok_pres kc 'c' ['u', 'm'] (by decide)]
  rw [hyphen_tok_pres 'c' ['u', 'm'] (by decide)]
  exact subCum_noTok false _

/-- C8: the name normalizer is idempotent: applying make_key_improved to
its own output returns that output unchanged, for every input string and
both comma modes. -/
theorem normalizer_idempotent (kc : Bool) (s : Str) :
    make_key_improved kc (make_key_improved kc s) = make_key_improved kc s := by
  have hall := key_allowed kc s
  have hhead := key_headNotSp kc s
  have hlast := key_lastNotSp kc s
  have hnd := key_noDbl kc s
  have hst := key_noTok_st kc s
  have hcum := key_noTok_cum kc s
  conv_lhs => rw [make_key_eq]
  rw [mapIdOn pyLower _ (fun c hc => pyLower_allowed_fix kc c (hall c hc))]
  rw [pyStrip_id _ hhead hlast]
  rw [strip_accents_id _ (fun c hc =>
    ⟨nfd_allowed_fix kc c (hall c hc), isMn_allowed kc c (hall c hc)⟩)]
  rw [strip_brackets_id _
    (fun c hc => allowed_ne kc c (hall c hc) '[' (by decide))
    (fun c hc => allowed_ne kc c (hall c hc) '(' (by decide))]
  rw [subSt_id false _
    (fun c hc => allowed_ne kc c (hall c hc) '.' (by decide)) hst]
  rw [subSaint_id]
  rw [ampSub_id _ (fun c hc => allowed_ne kc c (hall c hc) '&' (by decide))]
  rw [subCum_id false _ hcum]
  rw [hyphenSlashSub_id _ (fun c hc =>
    ⟨allowed_ne kc c (hall c hc) '-' (by decide),
     allowed_ne kc c (hall c hc) '/' (by decide)⟩)]
  rw [punctSub_id kc _ (key_class kc s)]
  rw [collapse_id _ (key_space_blank kc s) hnd]
  rw [pyStrip_id _ hhead hlast]

end Harmonization
